import Mathlib

/-!
Verification of the wgconfd specification against a shallow embedding of
its source code.

The embedding covers:
* `src/model/ip.rs` — IP prefixes (`Ipv4Net`/`Ipv6Net` instantiated as a
  width-generic `Net`), prefix validity, containment, siblings, the
  `PrefixSet` operations `insert`, `contains`, construction from a vector,
  and the binary (serde) deserializer;
* `src/manager/builder.rs` — the config builder (`add_server`,
  `add_road_warrior`, `insert_peer`, `peer_contact`, `add_peer`);
* `src/manager/updater.rs` — the per-source updater (`update`) together
  with Rust `Duration` arithmetic;
* `src/wg.rs` — the device adapter's `apply_diff`.

Machine integers are modelled as `Nat` (all the arithmetic involved is
width-bounded in the source by the value types, and the operations used
never overflow); `Vec` becomes `List`; a `HashMap` becomes an association
list whose lookup is first-match (hash maps have unique keys, so this is
faithful); fallible paths return `Option`/`Sum`.
-/

namespace Wgconfd

/-! ## IP prefixes (`src/model/ip.rs`)

`Ipv4Net` and `Ipv6Net` are produced by one macro over the address width,
so we embed them as a single structure parameterised by the width `W`
(32 for IPv4, 128 for IPv6). `address` is the numeric value of the
address (`u32`/`u128` in the source). -/

structure Net where
  address : Nat
  prefixLen : Nat
deriving DecidableEq, Repr

/-- Fallback element for list indexing (never semantically relevant). -/
def Net.zero : Net := ⟨0, 0⟩

instance : Inhabited Net := ⟨Net.zero⟩

/-- `is_valid` from `src/model/ip.rs` lines 33–43: the prefix length is in
range and no host bit is set.  `$intt::max_value() >> pfx` is
`(2^W - 1) >>> pfx`. -/
def Net.isValid (W : Nat) (n : Net) : Bool :=
  if n.prefixLen > W then false
  else if n.prefixLen = W then true
  else n.address &&& ((2 ^ W - 1) >>> n.prefixLen) == 0

/-- `contains` from `src/model/ip.rs` lines 45–60. -/
def Net.contains (W : Nat) (self other : Net) : Bool :=
  if self.prefixLen > other.prefixLen then false
  else if self.prefixLen = other.prefixLen then self.address == other.address
  else if self.prefixLen = 0 then true
  else
    (self.address >>> (W - self.prefixLen)) == (other.address >>> (W - self.prefixLen))

/-- `siblings` from `src/model/ip.rs` lines 150–159: same nonzero length,
addresses differing in exactly the last significant bit. -/
def siblings (W : Nat) (a b : Net) : Bool :=
  if b.prefixLen ≠ a.prefixLen ∨ a.prefixLen = 0 then false
  else a.address ^^^ b.address == 2 ^ (W - a.prefixLen)

/-- The derived `Ord` on the Rust struct `{ address, prefix_len }`:
lexicographic by address then prefix length. -/
def Net.lt (a b : Net) : Prop :=
  a.address < b.address ∨ (a.address = b.address ∧ a.prefixLen < b.prefixLen)

instance (a b : Net) : Decidable (Net.lt a b) := by
  unfold Net.lt; infer_instance

/-- The derived `Ord::cmp`. -/
def Net.cmp (a b : Net) : Ordering :=
  (compare a.address b.address).then (compare a.prefixLen b.prefixLen)

/-- The derived `≤` as a boolean, used for sorting. -/
def Net.ble (a b : Net) : Bool :=
  match Net.cmp a b with
  | Ordering.gt => false
  | _ => true

/-- Well-formed prefix of width `W`: the address is representable in `W`
bits (guaranteed by the `u32`/`u128` address type in the source) and
`is_valid` holds. -/
def Net.Wf (W : Nat) (n : Net) : Prop :=
  n.address < 2 ^ W ∧ n.isValid W = true

instance (W : Nat) (n : Net) : Decidable (n.Wf W) := by
  unfold Net.Wf; infer_instance

/-- Size of the address block covered by a prefix. -/
def Net.sz (W : Nat) (n : Net) : Nat := 2 ^ (W - n.prefixLen)

theorem Net.sz_pos (W : Nat) (n : Net) : 0 < n.sz W := Nat.pos_pow_of_pos _ (by omega)

theorem two_pow_sub_one_shiftRight (W p : Nat) (h : p ≤ W) :
    (2 ^ W - 1) >>> p = 2 ^ (W - p) - 1 := by
  rw [Nat.shiftRight_eq_div_pow]
  have hW : 2 ^ W = 2 ^ p * 2 ^ (W - p) := by
    rw [← pow_add]; congr 1; omega
  have hp : 0 < 2 ^ p := Nat.pos_pow_of_pos _ (by omega)
  have ha : 0 < 2 ^ (W - p) := Nat.pos_pow_of_pos _ (by omega)
  have key : 2 ^ W - 1 = 2 ^ p * (2 ^ (W - p) - 1) + (2 ^ p - 1) := by
    have h1 : 2 ^ p * (2 ^ (W - p) - 1) = 2 ^ p * 2 ^ (W - p) - 2 ^ p :=
      Nat.mul_sub_one _ _ ▸ by rw [Nat.mul_sub]
    have h2 : 2 ^ p ≤ 2 ^ p * 2 ^ (W - p) := Nat.le_mul_of_pos_right _ ha
    omega
  rw [key, Nat.mul_add_div hp, Nat.div_eq_of_lt (by omega), Nat.add_zero]

theorem Net.wf_iff (W : Nat) (n : Net) :
    n.Wf W ↔ n.prefixLen ≤ W ∧ n.address < 2 ^ W ∧ 2 ^ (W - n.prefixLen) ∣ n.address := by
  unfold Net.Wf Net.isValid
  constructor
  · rintro ⟨hb, hv⟩
    by_cases h1 : n.prefixLen > W
    · simp [h1] at hv
    by_cases h2 : n.prefixLen = W
    · exact ⟨by omega, hb, by simp [h2]⟩
    · simp only [h1, h2, if_false, beq_iff_eq] at hv
      rw [two_pow_sub_one_shiftRight W n.prefixLen (by omega),
        Nat.and_pow_two_sub_one_eq_mod] at hv
      exact ⟨by omega, hb, Nat.dvd_of_mod_eq_zero hv⟩
  · rintro ⟨h1, h2, h3⟩
    refine ⟨h2, ?_⟩
    by_cases hW : n.prefixLen = W
    · simp [hW, show ¬ (W > W) by omega]
    · simp only [show ¬ (n.prefixLen > W) by omega, hW, if_false, beq_iff_eq]
      rw [two_pow_sub_one_shiftRight W n.prefixLen (by omega),
        Nat.and_pow_two_sub_one_eq_mod]
      exact Nat.mod_eq_zero_of_dvd h3

/-- Two aligned addresses in the same block are equal. -/
theorem aligned_eq_of_in_block {s A B : Nat} (hA : s ∣ A) (hB : s ∣ B)
    (h1 : A ≤ B) (h2 : B < A + s) : A = B := by
  have hd : s ∣ (B - A) := Nat.dvd_sub' hB hA
  have := Nat.eq_zero_of_dvd_of_lt hd (by omega)
  omega

/-- Division characterisation: for `s`-aligned `A`, `B` lies in the block
starting at `A` iff `A` and `B` have the same `s`-quotient. -/
theorem div_eq_div_iff_in_block {s A B : Nat} (hs : 0 < s) (hA : s ∣ A) :
    A / s = B / s ↔ A ≤ B ∧ B < A + s := by
  have eA : s * (A / s) = A := by
    have := Nat.div_add_mod A s
    have hm : A % s = 0 := Nat.mod_eq_zero_of_dvd hA
    omega
  constructor
  · intro h
    have eB := Nat.div_add_mod B s
    have hr : B % s < s := Nat.mod_lt _ hs
    have hA2 : s * (B / s) = A := by rw [← h]; exact eA
    omega
  · rintro ⟨h1, h2⟩
    refine Nat.le_antisymm (Nat.div_le_div_right h1) ?_
    have hx : B < (A / s + 1) * s := by
      have he : (A / s + 1) * s = A + s := by
        have := Nat.add_mul (A / s) 1 s
        have := Nat.one_mul s
        have hc : A / s * s = A := by
          have := Nat.div_add_mod A s
          have hm : A % s = 0 := Nat.mod_eq_zero_of_dvd hA
          have := Nat.mul_comm s (A / s)
          omega
        omega
      omega
    have := (Nat.div_lt_iff_lt_mul hs).2 hx
    omega

/-- Characterisation of `contains` on well-formed prefixes: `a` contains
`b` exactly when `b`'s block lies inside `a`'s block and `a` is at most as
specific. -/
theorem Net.contains_iff (W : Nat) {a b : Net} (ha : a.Wf W) (hb : b.Wf W) :
    a.contains W b = true ↔
      a.prefixLen ≤ b.prefixLen ∧ a.address ≤ b.address ∧
        b.address < a.address + a.sz W := by
  obtain ⟨haW, haB, haD⟩ := (Net.wf_iff W a).1 ha
  obtain ⟨hbW, hbB, hbD⟩ := (Net.wf_iff W b).1 hb
  have hpos : 0 < 2 ^ (W - a.prefixLen) := Nat.pos_pow_of_pos _ (by omega)
  unfold Net.contains Net.sz
  by_cases h1 : a.prefixLen > b.prefixLen
  · rw [if_pos h1]
    constructor
    · intro h; exact absurd h (by simp)
    · rintro ⟨c1, -, -⟩; omega
  rw [if_neg h1]
  by_cases h2 : a.prefixLen = b.prefixLen
  · rw [if_pos h2, beq_iff_eq]
    constructor
    · intro h
      exact ⟨by omega, by omega, by omega⟩
    · rintro ⟨-, h4, h5⟩
      refine aligned_eq_of_in_block haD ?_ h4 h5
      rw [h2]
      exact hbD
  · rw [if_neg h2]
    by_cases h3 : a.prefixLen = 0
    · rw [if_pos h3]
      have ha0 : a.address = 0 := by
        have hd : 2 ^ (W - a.prefixLen) ∣ a.address := haD
        rw [h3, Nat.sub_zero] at hd
        exact Nat.eq_zero_of_dvd_of_lt hd haB
      have hsz : 2 ^ (W - a.prefixLen) = 2 ^ W := by rw [h3, Nat.sub_zero]
      constructor
      · intro _; exact ⟨by omega, by omega, by omega⟩
      · intro _; rfl
    · rw [if_neg h3, beq_iff_eq, Nat.shiftRight_eq_div_pow, Nat.shiftRight_eq_div_pow]
      rw [div_eq_div_iff_in_block hpos haD]
      constructor
      · rintro ⟨x1, x2⟩; exact ⟨by omega, x1, x2⟩
      · rintro ⟨-, x1, x2⟩; exact ⟨x1, x2⟩

theorem Net.contains_refl (W : Nat) (a : Net) : a.contains W a = true := by
  unfold Net.contains
  simp

/-- For well-formed prefixes containment gives inclusion of whole blocks. -/
theorem Net.block_sub (W : Nat) {a b : Net} (ha : a.Wf W) (hb : b.Wf W)
    (h : a.contains W b = true) :
    b.address + b.sz W ≤ a.address + a.sz W := by
  obtain ⟨h1, h2, h3⟩ := (Net.contains_iff W ha hb).1 h
  obtain ⟨haW, -, haD⟩ := (Net.wf_iff W a).1 ha
  obtain ⟨hbW, -, hbD⟩ := (Net.wf_iff W b).1 hb
  unfold Net.sz at *
  have hdvd2 : 2 ^ (W - b.prefixLen) ∣ 2 ^ (W - a.prefixLen) :=
    Nat.pow_dvd_pow 2 (by omega)
  have hd : 2 ^ (W - b.prefixLen) ∣ (a.address + 2 ^ (W - a.prefixLen) - b.address) :=
    Nat.dvd_sub' (Nat.dvd_add (dvd_trans hdvd2 haD) hdvd2) hbD
  have hpos : 0 < a.address + 2 ^ (W - a.prefixLen) - b.address := by omega
  have := Nat.le_of_dvd hpos hd
  omega

theorem Net.contains_trans (W : Nat) {a b c : Net} (ha : a.Wf W) (hb : b.Wf W)
    (hc : c.Wf W) (h1 : a.contains W b = true) (h2 : b.contains W c = true) :
    a.contains W c = true := by
  obtain ⟨x1, x2, x3⟩ := (Net.contains_iff W ha hb).1 h1
  obtain ⟨y1, y2, y3⟩ := (Net.contains_iff W hb hc).1 h2
  have hbs := Net.block_sub W ha hb h1
  exact (Net.contains_iff W ha hc).2 ⟨by omega, by omega, by omega⟩

/-! ### Sibling characterisation -/

theorem shiftLeft_xor_distrib (x y k : Nat) :
    (x <<< k) ^^^ (y <<< k) = (x ^^^ y) <<< k := by
  refine Nat.eq_of_testBit_eq fun i => ?_
  rw [Nat.testBit_xor, Nat.testBit_shiftLeft, Nat.testBit_shiftLeft,
    Nat.testBit_shiftLeft, Nat.testBit_xor]
  by_cases h : k ≤ i
  · simp [ge_iff_le, h]
  · simp [ge_iff_le, h]

theorem mul_pow_xor (x y k : Nat) :
    (x * 2 ^ k) ^^^ (y * 2 ^ k) = (x ^^^ y) * 2 ^ k := by
  rw [← Nat.shiftLeft_eq, ← Nat.shiftLeft_eq, ← Nat.shiftLeft_eq]
  exact shiftLeft_xor_distrib x y k

theorem xor_eq_one_cases {x y : Nat} (h : x ^^^ y = 1) :
    (y = x + 1 ∧ x % 2 = 0) ∨ (x = y + 1 ∧ y % 2 = 0) := by
  have hd : x / 2 = y / 2 := by
    refine Nat.eq_of_testBit_eq fun i => ?_
    rw [Nat.testBit_div_two, Nat.testBit_div_two]
    have := Nat.testBit_xor x y (i + 1)
    rw [h, @Nat.testBit_two_pow 0 (i + 1)] at this
    simp only [show (0 : Nat) ≠ i + 1 by omega, decide_eq_false_iff_not] at this
    rcases Bool.eq_false_or_eq_true (x.testBit (i + 1)) with hx | hx <;>
      rcases Bool.eq_false_or_eq_true (y.testBit (i + 1)) with hy | hy <;>
        simp [hx, hy] at this ⊢
  have hb : x % 2 ≠ y % 2 := by
    intro he
    have hbit := Nat.testBit_xor x y 0
    rw [h, @Nat.testBit_two_pow 0 0] at hbit
    simp only [decide_True] at hbit
    rw [Nat.testBit_zero, Nat.testBit_zero, he] at hbit
    simp at hbit
  have ex := Nat.div_add_mod x 2
  have ey := Nat.div_add_mod y 2
  have hx2 : x % 2 < 2 := Nat.mod_lt _ (by omega)
  have hy2 : y % 2 < 2 := Nat.mod_lt _ (by omega)
  omega

/-- Full characterisation of `siblings` on well-formed prefixes: equal
nonzero lengths, and the two blocks are the two halves of the common
parent block. -/
theorem siblings_spec (W : Nat) {a b : Net} (ha : a.Wf W) (hb : b.Wf W)
    (h : siblings W a b = true) :
    b.prefixLen = a.prefixLen ∧ a.prefixLen ≠ 0 ∧
      ((b.address = a.address + 2 ^ (W - a.prefixLen) ∧
          2 ^ (W - a.prefixLen + 1) ∣ a.address) ∨
        (a.address = b.address + 2 ^ (W - a.prefixLen) ∧
          2 ^ (W - a.prefixLen + 1) ∣ b.address)) := by
  unfold siblings at h
  by_cases hc : b.prefixLen ≠ a.prefixLen ∨ a.prefixLen = 0
  · rw [if_pos hc] at h; exact absurd h (by simp)
  rw [if_neg hc, beq_iff_eq] at h
  push_neg at hc
  obtain ⟨hlen, hnz⟩ := hc
  refine ⟨hlen, hnz, ?_⟩
  obtain ⟨-, -, haD⟩ := (Net.wf_iff W a).1 ha
  obtain ⟨-, -, hbD⟩ := (Net.wf_iff W b).1 hb
  rw [hlen] at hbD
  obtain ⟨α, hα⟩ := haD
  obtain ⟨β, hβ⟩ := hbD
  have hpos : 0 < 2 ^ (W - a.prefixLen) := Nat.pos_pow_of_pos _ (by omega)
  rw [hα, hβ, Nat.mul_comm _ α, Nat.mul_comm _ β, mul_pow_xor] at h
  have hone : α ^^^ β = 1 := by
    have : (α ^^^ β) * 2 ^ (W - a.prefixLen) = 1 * 2 ^ (W - a.prefixLen) := by
      rw [h, Nat.one_mul]
    exact Nat.eq_of_mul_eq_mul_right hpos this
  have hp2 : 2 ^ (W - a.prefixLen + 1) = 2 ^ (W - a.prefixLen) * 2 := by
    rw [pow_succ]
  rcases xor_eq_one_cases hone with ⟨h1, h2⟩ | ⟨h1, h2⟩
  · left
    constructor
    · rw [hα, hβ, h1]; ring
    · obtain ⟨m, hm⟩ : 2 ∣ α := Nat.dvd_of_mod_eq_zero h2
      exact ⟨m, by rw [hα, hm, hp2]; ring⟩
  · right
    constructor
    · rw [hα, hβ, h1]; ring
    · obtain ⟨m, hm⟩ : 2 ∣ β := Nat.dvd_of_mod_eq_zero h2
      exact ⟨m, by rw [hβ, hm, hp2]; ring⟩

theorem siblings_comm (W : Nat) (a b : Net) : siblings W a b = siblings W b a := by
  unfold siblings
  by_cases h1 : b.prefixLen ≠ a.prefixLen ∨ a.prefixLen = 0
  · rw [if_pos h1, if_pos (by omega)]
  · push_neg at h1
    rw [if_neg (by omega), if_neg (by omega), h1.1, Nat.xor_comm]

/-! ### Order lemmas -/

theorem Net.lt_irrefl (a : Net) : ¬ Net.lt a a := by
  unfold Net.lt; omega

theorem Net.lt_trans {a b c : Net} (h1 : Net.lt a b) (h2 : Net.lt b c) : Net.lt a c := by
  unfold Net.lt at *; omega

theorem Net.lt_asymm {a b : Net} (h : Net.lt a b) : ¬ Net.lt b a := by
  unfold Net.lt at *; omega

theorem Net.lt_total (a b : Net) : Net.lt a b ∨ a = b ∨ Net.lt b a := by
  unfold Net.lt
  rcases Nat.lt_trichotomy a.address b.address with h | h | h
  · left; omega
  · rcases Nat.lt_trichotomy a.prefixLen b.prefixLen with h2 | h2 | h2
    · left; omega
    · right; left
      cases a; cases b
      simp_all
    · right; right; omega
  · right; right; omega

theorem Net.cmp_eq_lt {a b : Net} : Net.cmp a b = Ordering.lt ↔ Net.lt a b := by
  unfold Net.cmp Net.lt
  rcases Nat.lt_trichotomy a.address b.address with h | h | h
  · rw [(Nat.compare_eq_lt).2 h]
    constructor
    · intro _; left; exact h
    · intro _; rfl
  · rw [(Nat.compare_eq_eq).2 h]
    show compare a.prefixLen b.prefixLen = Ordering.lt ↔ _
    rw [Nat.compare_eq_lt]
    constructor
    · intro h2; right; exact ⟨h, h2⟩
    · rintro (h2 | ⟨-, h2⟩)
      · omega
      · exact h2
  · rw [(Nat.compare_eq_gt).2 h]
    constructor
    · intro hx; exact Ordering.noConfusion hx
    · rintro (h2 | ⟨h2, -⟩) <;> omega

theorem Net.cmp_eq_eq {a b : Net} : Net.cmp a b = Ordering.eq ↔ a = b := by
  unfold Net.cmp
  rcases Nat.lt_trichotomy a.address b.address with h | h | h
  · rw [(Nat.compare_eq_lt).2 h]
    constructor
    · intro hx; exact Ordering.noConfusion hx
    · intro hx; rw [hx] at h; omega
  · rw [(Nat.compare_eq_eq).2 h]
    show compare a.prefixLen b.prefixLen = Ordering.eq ↔ _
    rw [Nat.compare_eq_eq]
    constructor
    · intro h2; cases a; cases b; simp_all
    · intro h2; rw [h2]
  · rw [(Nat.compare_eq_gt).2 h]
    constructor
    · intro hx; exact Ordering.noConfusion hx
    · intro hx; rw [hx] at h; omega

theorem Net.cmp_eq_gt {a b : Net} : Net.cmp a b = Ordering.gt ↔ Net.lt b a := by
  rcases Net.lt_total a b with h | h | h
  · rw [show Net.cmp a b = Ordering.lt from Net.cmp_eq_lt.2 h]
    constructor
    · intro hx; exact Ordering.noConfusion hx
    · intro hc; exact absurd h (Net.lt_asymm hc)
  · rw [show Net.cmp a b = Ordering.eq from Net.cmp_eq_eq.2 h]
    constructor
    · intro hx; exact Ordering.noConfusion hx
    · intro hc; rw [h] at hc; exact absurd hc (Net.lt_irrefl b)
  · constructor
    · intro _; exact h
    · intro _
      rcases hc : Net.cmp a b with hh | hh | hh
      · exact absurd (Net.cmp_eq_lt.1 hc) (Net.lt_asymm h)
      · exact absurd h (Net.cmp_eq_eq.1 hc ▸ Net.lt_irrefl a)
      · rfl

/-- No prefix strictly greater in the sort order can contain a smaller
one. -/
theorem not_contains_of_lt (W : Nat) {a b : Net} (ha : a.Wf W) (hb : b.Wf W)
    (h : Net.lt a b) : b.contains W a = false := by
  rcases Bool.eq_false_or_eq_true (b.contains W a) with h2 | h2
  · exfalso
    obtain ⟨x1, x2, -⟩ := (Net.contains_iff W hb ha).1 h2
    unfold Net.lt at h
    omega
  · exact h2

theorem siblings_true_elim (W : Nat) {a b : Net} (h : siblings W a b = true) :
    b.prefixLen = a.prefixLen ∧ a.prefixLen ≠ 0 := by
  unfold siblings at h
  by_cases hc : b.prefixLen ≠ a.prefixLen ∨ a.prefixLen = 0
  · rw [if_pos hc] at h; exact absurd h (by simp)
  · push_neg at hc; exact ⟨hc.1, hc.2⟩

/-! ## PrefixSet operations (`src/model/ip.rs`)

The set's backing vector becomes a `List Net`.  `slice::binary_search`
is embedded as the `base`/`size` loop of the 2019 standard library. -/

namespace PrefixSet

/-- `slice::binary_search_by` with the comparator `|p| p.cmp(x)`:
`.inl i` models `Ok(i)`, `.inr i` models `Err(i)`. -/
def bsLoop (l : List Net) (x : Net) (base size : Nat) : Sum Nat Nat :=
  if h : 1 < size then
    -- in the source: `half = size / 2; mid = base + half`
    match Net.cmp (l.getD (base + size / 2) Net.zero) x with
    | .gt => bsLoop l x base (size - size / 2)
    | _ => bsLoop l x (base + size / 2) (size - size / 2)
  else
    match Net.cmp (l.getD base Net.zero) x with
    | .eq => .inl base
    | .lt => .inr (base + 1)
    | .gt => .inr base
termination_by size
decreasing_by all_goals omega

def binarySearch (l : List Net) (x : Net) : Sum Nat Nat :=
  if l.length = 0 then .inr 0 else bsLoop l x 0 l.length

/-- The absorption loop of `insert` (`src/model/ip.rs` line 171):
`while j < self.nets.len() && net.contains(&self.nets[j]) { j += 1; }`. -/
def jAdvance (W : Nat) (l : List Net) (net : Net) (j : Nat) : Nat :=
  if h : j < l.length ∧ net.contains W (l.getD j Net.zero) = true then
    jAdvance W l net (j + 1)
  else j
termination_by l.length - j
decreasing_by omega

/-- The sibling-coalescing loop of `insert` (`src/model/ip.rs` lines
174–184). -/
def insertLoop (W : Nat) (l : List Net) (net : Net) (i j : Nat) : Net × Nat × Nat :=
  if h1 : j < l.length ∧ siblings W net (l.getD j Net.zero) = true then
    insertLoop W l ⟨net.address, net.prefixLen - 1⟩ i (j + 1)
  else if h2 : i ≠ 0 ∧ siblings W (l.getD (i - 1) Net.zero) net = true then
    insertLoop W l
      ⟨(l.getD (i - 1) Net.zero).address, (l.getD (i - 1) Net.zero).prefixLen - 1⟩
      (i - 1) j
  else (net, i, j)
termination_by net.prefixLen
decreasing_by
  · have hx := (siblings_true_elim W h1.2).2
    show net.prefixLen - 1 < net.prefixLen
    omega
  · have hx := siblings_true_elim W h2.2
    show (l.getD (i - 1) Net.zero).prefixLen - 1 < net.prefixLen
    omega

/-- `PrefixSet::insert` (`src/model/ip.rs` lines 161–186).  The final
`splice(i..j, once(net))` is `take i ++ [net] ++ drop j`. -/
def insert (W : Nat) (l : List Net) (x : Net) : List Net :=
  match binarySearch l x with
  | .inl _ => l
  | .inr v =>
    let p := if v ≠ 0 ∧ (l.getD (v - 1) Net.zero).contains W x = true
      then ((l.getD (v - 1) Net.zero), v - 1) else (x, v)
    let j0 := jAdvance W l p.1 v
    let r := insertLoop W l p.1 p.2 j0
    l.take r.2.1 ++ [r.1] ++ l.drop r.2.2

/-- `PrefixSet::contains` (`src/model/ip.rs` lines 188–198). -/
def contains (W : Nat) (l : List Net) (x : Net) : Bool :=
  match binarySearch l x with
  | .inl _ => true
  | .inr i => if i = 0 then false else (l.getD (i - 1) Net.zero).contains W x

/-- The sibling-coalescing loop of `From<Vec<_>>` (`src/model/ip.rs`
lines 272–276), acting on the output stack `s.nets[0..i]` kept in
reverse (most recent first). -/
def sibMerge (W : Nat) : List Net → Net → List Net
  | [], x => [x]
  | t :: rest, x =>
    if siblings W t x = true then sibMerge W rest ⟨t.address, t.prefixLen - 1⟩
    else x :: t :: rest

/-- One iteration of the `From<Vec<_>>` merge sweep (`src/model/ip.rs`
lines 266–279): absorb into the stack top if it contains the incoming
element, then coalesce siblings, then push. -/
def sweepStep (W : Nat) (stack : List Net) (x : Net) : List Net :=
  match stack with
  | [] => [x]
  | t :: rest =>
    if t.contains W x = true then sibMerge W rest t
    else sibMerge W (t :: rest) x

/-- `From<Vec<$nett>> for $sett` (`src/model/ip.rs` lines 257–283):
sort, then a single left-to-right merge sweep.  `Vec::sort` is a stable
sort by the derived lexicographic `Ord`; since that order is total and
antisymmetric its result is the unique `≤`-sorted permutation, which
`List.mergeSort` also computes. -/
def fromVec (W : Nat) (v : List Net) : List Net :=
  match v.mergeSort Net.ble with
  | [] => []
  | h :: t => (t.foldl (sweepStep W) [h]).reverse

end PrefixSet

/-! ## Canonical form -/

/-- Ordered non-interfering pair: disjoint blocks in increasing address
order that are not siblings.  This is the working form of the canonical
invariant. -/
def NIC (W : Nat) (a b : Net) : Prop :=
  a.address + a.sz W ≤ b.address ∧ siblings W a b = false

def CanonL (W : Nat) (l : List Net) : Prop := l.Pairwise (NIC W)

def AllWf (W : Nat) (l : List Net) : Prop := ∀ n ∈ l, n.Wf W

/-- Canonical form exactly as the specification states it: strictly
sorted by `(address, prefix_len)`, no element contains another, and no
two same-length siblings both remain. -/
def goodPair (W : Nat) (a b : Net) : Prop :=
  Net.lt a b ∧ a.contains W b = false ∧ b.contains W a = false ∧
    siblings W a b = false

def Canonical (W : Nat) (l : List Net) : Prop := l.Pairwise (goodPair W)

instance (W : Nat) (a b : Net) : Decidable (goodPair W a b) := by
  unfold goodPair; infer_instance

instance (W : Nat) (a b : Net) : Decidable (NIC W a b) := by
  unfold NIC; infer_instance

instance (W : Nat) (l : List Net) : Decidable (Canonical W l) := by
  unfold Canonical; infer_instance

instance (W : Nat) (l : List Net) : Decidable (AllWf W l) := by
  unfold AllWf; infer_instance

theorem leftOf_of_lt_not_contains (W : Nat) {a b : Net} (ha : a.Wf W) (hb : b.Wf W)
    (hlt : Net.lt a b) (hab : a.contains W b = false) :
    a.address + a.sz W ≤ b.address := by
  by_contra hc
  push_neg at hc
  have hle : a.address ≤ b.address := by unfold Net.lt at hlt; omega
  by_cases hlen : a.prefixLen ≤ b.prefixLen
  · have := (Net.contains_iff W ha hb).2 ⟨hlen, hle, hc⟩
    rw [this] at hab
    exact absurd hab (by simp)
  · -- `b` is shorter: both addresses are `a.sz`-aligned and in the same
    -- block, forcing equal addresses, which contradicts the order.
    obtain ⟨haW, -, haD⟩ := (Net.wf_iff W a).1 ha
    obtain ⟨hbW, -, hbD⟩ := (Net.wf_iff W b).1 hb
    have hdvd : 2 ^ (W - a.prefixLen) ∣ b.address :=
      dvd_trans (Nat.pow_dvd_pow 2 (by omega)) hbD
    have heq : a.address = b.address := by
      refine aligned_eq_of_in_block haD hdvd hle ?_
      unfold Net.sz at hc
      omega
    unfold Net.lt at hlt
    omega

theorem not_contains_of_leftOf (W : Nat) {a b : Net} (ha : a.Wf W) (hb : b.Wf W)
    (h : a.address + a.sz W ≤ b.address) : a.contains W b = false := by
  rcases Bool.eq_false_or_eq_true (a.contains W b) with h2 | h2
  · exfalso
    obtain ⟨-, -, x3⟩ := (Net.contains_iff W ha hb).1 h2
    omega
  · exact h2

theorem lt_of_leftOf (W : Nat) {a b : Net} (h : a.address + a.sz W ≤ b.address) :
    Net.lt a b := by
  have := Net.sz_pos W a
  unfold Net.lt
  omega

theorem goodPair_of_NIC (W : Nat) {a b : Net} (ha : a.Wf W) (hb : b.Wf W)
    (h : NIC W a b) : goodPair W a b := by
  obtain ⟨h1, h2⟩ := h
  have hlt := lt_of_leftOf W h1
  exact ⟨hlt, not_contains_of_leftOf W ha hb h1, not_contains_of_lt W ha hb hlt, h2⟩

theorem NIC_of_goodPair (W : Nat) {a b : Net} (ha : a.Wf W) (hb : b.Wf W)
    (h : goodPair W a b) : NIC W a b := by
  obtain ⟨h1, h2, -, h4⟩ := h
  exact ⟨leftOf_of_lt_not_contains W ha hb h1 h2, h4⟩

theorem canonical_iff_canonL (W : Nat) {l : List Net} (hw : AllWf W l) :
    Canonical W l ↔ CanonL W l := by
  constructor
  · intro h
    exact h.imp_of_mem fun hma hmb hp => NIC_of_goodPair W (hw _ hma) (hw _ hmb) hp
  · intro h
    exact h.imp_of_mem fun hma hmb hp => goodPair_of_NIC W (hw _ hma) (hw _ hmb) hp

/-! ## Binary search correctness on strictly sorted lists -/

theorem pairwise_lt_getD {l : List Net} (hs : l.Pairwise Net.lt) {i j : Nat}
    (hij : i < j) (hj : j < l.length) :
    Net.lt (l.getD i Net.zero) (l.getD j Net.zero) := by
  rw [List.getD_eq_getElem _ _ (by omega), List.getD_eq_getElem _ _ hj]
  have := List.pairwise_iff_get.1 hs ⟨i, by omega⟩ ⟨j, hj⟩ (by simpa using hij)
  simpa [List.get_eq_getElem] using this

namespace PrefixSet

theorem bsLoop_spec (l : List Net) (x : Net) (hs : l.Pairwise Net.lt) :
    ∀ size base, 1 ≤ size → base + size ≤ l.length →
    (∀ k, k < base → Net.lt (l.getD k Net.zero) x) →
    (∀ k, base + size ≤ k → k < l.length → Net.lt x (l.getD k Net.zero)) →
    (∀ i, bsLoop l x base size = .inl i → i < l.length ∧ l.getD i Net.zero = x) ∧
    (∀ v, bsLoop l x base size = .inr v → v ≤ l.length ∧
      (∀ k, k < v → Net.lt (l.getD k Net.zero) x) ∧
      (∀ k, v ≤ k → k < l.length → Net.lt x (l.getD k Net.zero))) := by
  intro size
  induction size using Nat.strong_induction_on with
  | _ size ih =>
    intro base h1 h2 h3 h4
    rw [bsLoop]
    by_cases hg : 1 < size
    · rw [dif_pos hg]
      have hhalf : 1 ≤ size / 2 := by omega
      have hhalf2 : 2 * (size / 2) ≤ size := by omega
      have hmidlt : base + size / 2 < l.length := by omega
      cases hcmp : Net.cmp (l.getD (base + size / 2) Net.zero) x
      · -- Less: take the upper part, base := mid
        have hltm : Net.lt (l.getD (base + size / 2) Net.zero) x := Net.cmp_eq_lt.1 hcmp
        refine ih (size - size / 2) (by omega) (base + size / 2) (by omega) (by omega)
          ?_ ?_
        · intro k hk
          exact Net.lt_trans (pairwise_lt_getD hs hk hmidlt) hltm
        · intro k hk hk2
          exact h4 k (by omega) hk2
      · -- Equal: base := mid as well
        have heqm : l.getD (base + size / 2) Net.zero = x := Net.cmp_eq_eq.1 hcmp
        refine ih (size - size / 2) (by omega) (base + size / 2) (by omega) (by omega)
          ?_ ?_
        · intro k hk
          rw [← heqm]
          exact pairwise_lt_getD hs hk hmidlt
        · intro k hk hk2
          exact h4 k (by omega) hk2
      · -- Greater: keep the lower part
        have hgtm : Net.lt x (l.getD (base + size / 2) Net.zero) := Net.cmp_eq_gt.1 hcmp
        refine ih (size - size / 2) (by omega) base (by omega) (by omega) h3 ?_
        intro k hk hk2
        have hmidle : base + size / 2 ≤ k := by omega
        rcases Nat.eq_or_lt_of_le hmidle with hk3 | hk3
        · rw [← hk3]; exact hgtm
        · exact Net.lt_trans hgtm (pairwise_lt_getD hs hk3 hk2)
    · rw [dif_neg hg]
      have hsz1 : size = 1 := by omega
      have hbl : base < l.length := by omega
      cases hcmp : Net.cmp (l.getD base Net.zero) x
      · constructor
        · intro i hi; exact absurd hi (by simp)
        · intro v hv
          have hveq : v = base + 1 := by
            simpa using hv.symm
          subst hveq
          refine ⟨by omega, ?_, ?_⟩
          · intro k hk
            rcases Nat.lt_or_ge k base with hk2 | hk2
            · exact h3 k hk2
            · have : k = base := by omega
              rw [this]
              exact Net.cmp_eq_lt.1 hcmp
          · intro k hk hk2
            exact h4 k (by omega) hk2
      · constructor
        · intro i hi
          have hieq : i = base := by simpa using hi.symm
          subst hieq
          exact ⟨hbl, Net.cmp_eq_eq.1 hcmp⟩
        · intro v hv; exact absurd hv (by simp)
      · constructor
        · intro i hi; exact absurd hi (by simp)
        · intro v hv
          have hveq : v = base := by simpa using hv.symm
          subst hveq
          refine ⟨by omega, h3, ?_⟩
          intro k hk hk2
          rcases Nat.eq_or_lt_of_le hk with hk3 | hk3
          · rw [← hk3]
            exact Net.cmp_eq_gt.1 hcmp
          · exact h4 k (by omega) hk2

theorem binarySearch_spec (l : List Net) (x : Net) (hs : l.Pairwise Net.lt) :
    (∀ i, binarySearch l x = .inl i → i < l.length ∧ l.getD i Net.zero = x) ∧
    (∀ v, binarySearch l x = .inr v → v ≤ l.length ∧
      (∀ k, k < v → Net.lt (l.getD k Net.zero) x) ∧
      (∀ k, v ≤ k → k < l.length → Net.lt x (l.getD k Net.zero))) := by
  unfold binarySearch
  by_cases h0 : l.length = 0
  · rw [if_pos h0]
    constructor
    · intro i hi; exact absurd hi (by simp)
    · intro v hv
      have : v = 0 := by simpa using hv.symm
      subst this
      exact ⟨by omega, by omega, by omega⟩
  · rw [if_neg h0]
    exact bsLoop_spec l x hs l.length 0 (by omega) (by omega) (by omega) (by omega)

/-- On a strictly sorted list, the search finds every member. -/
theorem binarySearch_mem (l : List Net) (x : Net) (hs : l.Pairwise Net.lt)
    (hm : x ∈ l) : ∃ i, binarySearch l x = .inl i := by
  rcases hr : binarySearch l x with i | v
  · exact ⟨i, rfl⟩
  · exfalso
    obtain ⟨-, hlo, hhi⟩ := (binarySearch_spec l x hs).2 v hr
    obtain ⟨m, hmlt, hme⟩ := List.getElem_of_mem hm
    have hgd : l.getD m Net.zero = x := by
      rw [List.getD_eq_getElem _ _ hmlt, hme]
    rcases Nat.lt_or_ge m v with hmv | hmv
    · have := hlo m hmv
      rw [hgd] at this
      exact Net.lt_irrefl x this
    · have := hhi m hmv hmlt
      rw [hgd] at this
      exact Net.lt_irrefl x this

/-- Conversely `Err` implies the element is absent. -/
theorem binarySearch_inr_not_mem (l : List Net) (x : Net) (hs : l.Pairwise Net.lt)
    {v : Nat} (hr : binarySearch l x = .inr v) : x ∉ l := by
  intro hm
  obtain ⟨i, hi⟩ := binarySearch_mem l x hs hm
  rw [hi] at hr
  exact absurd hr (by simp)

end PrefixSet

/-! ## Canonical-list helper lemmas -/

theorem canonL_pairwise_lt (W : Nat) {l : List Net} (hc : CanonL W l) :
    l.Pairwise Net.lt :=
  hc.imp fun h => lt_of_leftOf W h.1

theorem canonL_pair (W : Nat) {l : List Net} (hc : CanonL W l) {i j : Nat}
    (hij : i < j) (hj : j < l.length) :
    NIC W (l.getD i Net.zero) (l.getD j Net.zero) := by
  rw [List.getD_eq_getElem _ _ (by omega), List.getD_eq_getElem _ _ hj]
  have := List.pairwise_iff_get.1 hc ⟨i, by omega⟩ ⟨j, hj⟩ (by simpa using hij)
  simpa [List.get_eq_getElem] using this

theorem getD_mem {l : List Net} {k : Nat} (h : k < l.length) :
    l.getD k Net.zero ∈ l := by
  rw [List.getD_eq_getElem _ _ h]
  exact List.getElem_mem h

theorem mem_take_getD {l : List Net} {i : Nat} {a : Net} (h : a ∈ l.take i) :
    ∃ m, m < i ∧ m < l.length ∧ l.getD m Net.zero = a := by
  rw [List.mem_take_iff_getElem] at h
  obtain ⟨m, hm, he⟩ := h
  have hm2 : m < i ∧ m < l.length := by
    constructor <;> [exact lt_of_lt_of_le hm (Nat.min_le_left _ _);
      exact lt_of_lt_of_le hm (Nat.min_le_right _ _)]
  exact ⟨m, hm2.1, hm2.2, by rw [List.getD_eq_getElem _ _ hm2.2]; exact he⟩

theorem mem_drop_getD {l : List Net} {j : Nat} {b : Net} (h : b ∈ l.drop j) :
    ∃ m, j ≤ m ∧ m < l.length ∧ l.getD m Net.zero = b := by
  obtain ⟨m, hm, he⟩ := List.getElem_of_mem h
  have hlen : m < l.length - j := by
    have := List.length_drop j l
    omega
  refine ⟨j + m, by omega, by omega, ?_⟩
  rw [List.getElem_drop] at he
  rw [List.getD_eq_getElem _ _ (by omega)]
  exact he

namespace PrefixSet

/-- Specification of the absorption loop: starting from a position `v`
whose tail is strictly above `net` and free of reverse containment, it
stops at a position from which every element lies wholly to the right of
`net`'s block. -/
theorem jAdvance_spec (W : Nat) (l : List Net) (hc : CanonL W l) (hw : AllWf W l)
    (net : Net) (hnet : net.Wf W) :
    ∀ v, v ≤ l.length →
    (∀ k, v ≤ k → k < l.length → Net.lt net (l.getD k Net.zero) ∧
      (l.getD k Net.zero).contains W net = false) →
    v ≤ jAdvance W l net v ∧ jAdvance W l net v ≤ l.length ∧
      (∀ k, jAdvance W l net v ≤ k → k < l.length →
        net.address + net.sz W ≤ (l.getD k Net.zero).address) := by
  intro v
  induction v using jAdvance.induct W l net with
  | case1 v h ih =>
    intro hvlen hpre
    rw [jAdvance, dif_pos h]
    have hrec := ih (by omega) (fun k hk hk2 => hpre k (by omega) hk2)
    exact ⟨by omega, hrec.2.1, hrec.2.2⟩
  | case2 v h =>
    intro hvlen hpre
    rw [jAdvance, dif_neg h]
    refine ⟨Nat.le_refl v, hvlen, ?_⟩
    intro k hk hk2
    have hvlt : v < l.length := by omega
    have hnc : net.contains W (l.getD v Net.zero) = false := by
      rcases Bool.eq_false_or_eq_true (net.contains W (l.getD v Net.zero)) with h2 | h2
      · exact absurd ⟨hvlt, h2⟩ h
      · exact h2
    have hv0 := hpre v (Nat.le_refl v) hvlt
    have hvleft : net.address + net.sz W ≤ (l.getD v Net.zero).address :=
      leftOf_of_lt_not_contains W hnet (hw _ (getD_mem hvlt)) hv0.1 hnc
    rcases Nat.eq_or_lt_of_le hk with hk3 | hk3
    · rw [← hk3]; exact hvleft
    · have hpair := canonL_pair W hc hk3 hk2
      have := Net.sz_pos W (l.getD v Net.zero)
      have h1 := hpair.1
      omega

end PrefixSet

namespace PrefixSet

/-- Invariant of the sibling-coalescing loop of `insert`.  Starting from
a state where everything left of `i` lies wholly below `net`'s block and
everything from `j` on lies wholly above it, the loop keeps those
invariants, only widens `net`, and stops with no sibling at either
boundary. -/
theorem insertLoop_spec (W : Nat) (l : List Net) (hc : CanonL W l) (hw : AllWf W l) :
    ∀ net i j, net.Wf W → i ≤ j → j ≤ l.length →
    (∀ k, k < i → (l.getD k Net.zero).address + (l.getD k Net.zero).sz W ≤ net.address) →
    (∀ k, j ≤ k → k < l.length → net.address + net.sz W ≤ (l.getD k Net.zero).address) →
    (insertLoop W l net i j).1.Wf W ∧
    (insertLoop W l net i j).2.1 ≤ i ∧
    j ≤ (insertLoop W l net i j).2.2 ∧
    (insertLoop W l net i j).2.2 ≤ l.length ∧
    (∀ k, k < (insertLoop W l net i j).2.1 →
      (l.getD k Net.zero).address + (l.getD k Net.zero).sz W ≤
        (insertLoop W l net i j).1.address) ∧
    (∀ k, (insertLoop W l net i j).2.2 ≤ k → k < l.length →
      (insertLoop W l net i j).1.address + (insertLoop W l net i j).1.sz W ≤
        (l.getD k Net.zero).address) ∧
    ((insertLoop W l net i j).2.1 ≠ 0 →
      siblings W (l.getD ((insertLoop W l net i j).2.1 - 1) Net.zero)
        (insertLoop W l net i j).1 = false) ∧
    ((insertLoop W l net i j).2.2 < l.length →
      siblings W (insertLoop W l net i j).1
        (l.getD (insertLoop W l net i j).2.2 Net.zero) = false) ∧
    (insertLoop W l net i j).1.contains W net = true := by
  intro net i j
  induction net, i, j using insertLoop.induct W l with
  | case1 net i j h1 ih =>
    intro hwf hij hjlen hleft hright
    rw [insertLoop, dif_pos h1]
    obtain ⟨hjl, hsib⟩ := h1
    have hwfj : (l.getD j Net.zero).Wf W := hw _ (getD_mem hjl)
    obtain ⟨hlenEq, hlenNz, hdisj⟩ := siblings_spec W hwf hwfj hsib
    have hszP : 0 < 2 ^ (W - net.prefixLen) := Nat.pos_pow_of_pos _ (by omega)
    have hszNet : net.sz W = 2 ^ (W - net.prefixLen) := rfl
    have hrj := hright j (Nat.le_refl j) hjl
    -- the right sibling is the upper half
    rcases hdisj with ⟨hadj, hdvd⟩ | ⟨hadj, hdvd⟩
    swap
    · exfalso; omega
    obtain ⟨hnetW, hnetB, -⟩ := (Net.wf_iff W net).1 hwf
    have hidx : W - (net.prefixLen - 1) = W - net.prefixLen + 1 := by omega
    have hwf2 : (⟨net.address, net.prefixLen - 1⟩ : Net).Wf W := by
      rw [Net.wf_iff]
      refine ⟨?_, hnetB, ?_⟩
      · show net.prefixLen - 1 ≤ W
        omega
      · show 2 ^ (W - (net.prefixLen - 1)) ∣ net.address
        rw [hidx]
        exact hdvd
    have hsz2 : (⟨net.address, net.prefixLen - 1⟩ : Net).sz W =
        2 * 2 ^ (W - net.prefixLen) := by
      show 2 ^ (W - (net.prefixLen - 1)) = _
      rw [hidx, pow_succ]
      ring
    have hszj : (l.getD j Net.zero).sz W = 2 ^ (W - net.prefixLen) := by
      show 2 ^ (W - (l.getD j Net.zero).prefixLen) = _
      rw [hlenEq]
    have hrec := ih hwf2 (by omega) (by omega)
      (by
        intro k hk
        have := hleft k hk
        show _ ≤ net.address
        omega)
      (by
        intro k hk hk2
        have hpair := canonL_pair W hc (show j < k by omega) hk2
        have h5 := hpair.1
        show net.address + (⟨net.address, net.prefixLen - 1⟩ : Net).sz W ≤ _
        rw [hsz2]
        rw [hszj] at h5
        omega)
    obtain ⟨c1, c2, c3, c4, c5, c6, c7, c8, c9⟩ := hrec
    refine ⟨c1, c2, Nat.le_of_succ_le c3, c4, c5, c6, c7, c8, ?_⟩
    refine Net.contains_trans W c1 hwf2 hwf c9 ?_
    rw [Net.contains_iff W hwf2 hwf]
    refine ⟨?_, ?_, ?_⟩
    · show net.prefixLen - 1 ≤ net.prefixLen
      omega
    · show net.address ≤ net.address
      omega
    · show net.address < net.address + (⟨net.address, net.prefixLen - 1⟩ : Net).sz W
      rw [hsz2]
      omega
  | case2 net i j h1 h2 ih =>
    intro hwf hij hjlen hleft hright
    rw [insertLoop, dif_neg h1, dif_pos h2]
    obtain ⟨hi0, hsib⟩ := h2
    have hilt : i - 1 < l.length := by omega
    have hwfp : (l.getD (i - 1) Net.zero).Wf W := hw _ (getD_mem hilt)
    obtain ⟨hlenEq, hlenNz, hdisj⟩ := siblings_spec W hwfp hwf hsib
    -- `hlenEq : net.prefixLen = (l.getD (i-1) Net.zero).prefixLen`
    have hszP : 0 < 2 ^ (W - (l.getD (i - 1) Net.zero).prefixLen) :=
      Nat.pos_pow_of_pos _ (by omega)
    have hlp := hleft (i - 1) (by omega)
    have hszp : (l.getD (i - 1) Net.zero).sz W =
        2 ^ (W - (l.getD (i - 1) Net.zero).prefixLen) := rfl
    -- the left sibling is the lower half
    rcases hdisj with ⟨hadj, hdvd⟩ | ⟨hadj, hdvd⟩
    swap
    · exfalso; omega
    obtain ⟨hpW, hpB, -⟩ := (Net.wf_iff W (l.getD (i - 1) Net.zero)).1 hwfp
    have hidx : W - ((l.getD (i - 1) Net.zero).prefixLen - 1) =
        W - (l.getD (i - 1) Net.zero).prefixLen + 1 := by omega
    have hwf2 : (⟨(l.getD (i - 1) Net.zero).address,
        (l.getD (i - 1) Net.zero).prefixLen - 1⟩ : Net).Wf W := by
      rw [Net.wf_iff]
      refine ⟨?_, hpB, ?_⟩
      · show (l.getD (i - 1) Net.zero).prefixLen - 1 ≤ W
        omega
      · show 2 ^ (W - ((l.getD (i - 1) Net.zero).prefixLen - 1)) ∣ _
        rw [hidx]
        exact hdvd
    have hsz2 : (⟨(l.getD (i - 1) Net.zero).address,
        (l.getD (i - 1) Net.zero).prefixLen - 1⟩ : Net).sz W =
        2 * 2 ^ (W - (l.getD (i - 1) Net.zero).prefixLen) := by
      show 2 ^ (W - ((l.getD (i - 1) Net.zero).prefixLen - 1)) = _
      rw [hidx, pow_succ]
      ring
    have hsznet : net.sz W = 2 ^ (W - (l.getD (i - 1) Net.zero).prefixLen) := by
      show 2 ^ (W - net.prefixLen) = _
      rw [hlenEq]
    have hrec := ih hwf2 (by omega) hjlen
      (by
        intro k hk
        have hpair := canonL_pair W hc (show k < i - 1 by omega) hilt
        have h5 := hpair.1
        show _ ≤ (l.getD (i - 1) Net.zero).address
        omega)
      (by
        intro k hk hk2
        have h5 := hright k hk hk2
        show (l.getD (i - 1) Net.zero).address +
          (⟨(l.getD (i - 1) Net.zero).address,
            (l.getD (i - 1) Net.zero).prefixLen - 1⟩ : Net).sz W ≤ _
        rw [hsz2]
        rw [hsznet] at h5
        omega)
    obtain ⟨c1, c2, c3, c4, c5, c6, c7, c8, c9⟩ := hrec
    refine ⟨c1, le_trans c2 (Nat.sub_le i 1), c3, c4, c5, c6, c7, c8, ?_⟩
    refine Net.contains_trans W c1 hwf2 hwf c9 ?_
    rw [Net.contains_iff W hwf2 hwf]
    refine ⟨?_, ?_, ?_⟩
    · show (l.getD (i - 1) Net.zero).prefixLen - 1 ≤ net.prefixLen
      omega
    · show (l.getD (i - 1) Net.zero).address ≤ net.address
      omega
    · show net.address < (l.getD (i - 1) Net.zero).address +
        (⟨(l.getD (i - 1) Net.zero).address,
          (l.getD (i - 1) Net.zero).prefixLen - 1⟩ : Net).sz W
      rw [hsz2]
      omega
  | case3 net i j h1 h2 =>
    intro hwf hij hjlen hleft hright
    rw [insertLoop, dif_neg h1, dif_neg h2]
    refine ⟨hwf, Nat.le_refl i, Nat.le_refl j, hjlen, hleft, hright, ?_, ?_,
      Net.contains_refl W net⟩
    · intro hi
      rcases Bool.eq_false_or_eq_true
          (siblings W (l.getD (i - 1) Net.zero) net) with hs | hs
      · exact absurd ⟨hi, hs⟩ h2
      · exact hs
    · intro hj
      rcases Bool.eq_false_or_eq_true
          (siblings W net (l.getD j Net.zero)) with hs | hs
      · exact absurd ⟨hj, hs⟩ h1
      · exact hs

end PrefixSet

/-! ## Canonicity of the spliced result -/

theorem splice_canonical (W : Nat) (l : List Net) (hc : CanonL W l) (hw : AllWf W l)
    {net : Net} {i j : Nat} (hwf : net.Wf W) (hij : i ≤ j) (hjlen : j ≤ l.length)
    (hleft : ∀ k, k < i →
      (l.getD k Net.zero).address + (l.getD k Net.zero).sz W ≤ net.address)
    (hright : ∀ k, j ≤ k → k < l.length →
      net.address + net.sz W ≤ (l.getD k Net.zero).address)
    (hsibL : i ≠ 0 → siblings W (l.getD (i - 1) Net.zero) net = false)
    (hsibR : j < l.length → siblings W net (l.getD j Net.zero) = false) :
    CanonL W (l.take i ++ [net] ++ l.drop j) ∧
      AllWf W (l.take i ++ [net] ++ l.drop j) := by
  constructor
  · unfold CanonL
    rw [List.pairwise_append, List.pairwise_append]
    refine ⟨⟨List.Pairwise.sublist (List.take_sublist i l) hc,
      List.pairwise_singleton _ _, ?_⟩,
      List.Pairwise.sublist (List.drop_sublist j l) hc, ?_⟩
    · -- every element of the kept prefix is NIC-below `net`
      intro a hma b hmb
      rw [List.mem_singleton] at hmb
      obtain ⟨k, hki, hklen, hkeq⟩ := mem_take_getD hma
      rw [hmb, ← hkeq]
      refine ⟨hleft k hki, ?_⟩
      by_cases hkp : k = i - 1
      · subst hkp
        exact hsibL (by omega)
      · -- a deeper sibling would leave no room for the element at `i - 1`
        rcases Bool.eq_false_or_eq_true
            (siblings W (l.getD k Net.zero) net) with hT | hF
        · exfalso
          obtain ⟨hlenEq, hlenNz, hdisj⟩ :=
            siblings_spec W (hw _ (getD_mem hklen)) hwf hT
          have hszk : (l.getD k Net.zero).sz W =
              2 ^ (W - (l.getD k Net.zero).prefixLen) := rfl
          have hszkP : 0 < 2 ^ (W - (l.getD k Net.zero).prefixLen) :=
            Nat.pos_pow_of_pos _ (by omega)
          have hlk := hleft k hki
          rcases hdisj with ⟨hadj, -⟩ | ⟨hadj, -⟩
          swap
          · omega
          have hpair := canonL_pair W hc (show k < i - 1 by omega)
            (show i - 1 < l.length by omega)
          have hlp := hleft (i - 1) (by omega)
          have := Net.sz_pos W (l.getD (i - 1) Net.zero)
          have h5 := hpair.1
          omega
        · exact hF
    · -- elements of the kept prefix and of `net` precede the kept suffix
      intro a hma b hmb
      obtain ⟨m, hmj, hmlen, hmeq⟩ := mem_drop_getD hmb
      rw [← hmeq]
      rw [List.mem_append, List.mem_singleton] at hma
      rcases hma with hma | hma
      · obtain ⟨k, hki, hklen, hkeq⟩ := mem_take_getD hma
        rw [← hkeq]
        exact canonL_pair W hc (show k < m by omega) hmlen
      · rw [hma]
        refine ⟨hright m hmj hmlen, ?_⟩
        by_cases hmjp : m = j
        · subst hmjp
          exact hsibR (by omega)
        · rcases Bool.eq_false_or_eq_true
              (siblings W net (l.getD m Net.zero)) with hT | hF
          · exfalso
            obtain ⟨hlenEq, hlenNz, hdisj⟩ :=
              siblings_spec W hwf (hw _ (getD_mem hmlen)) hT
            have hsznet : net.sz W = 2 ^ (W - net.prefixLen) := rfl
            have hsznetP : 0 < 2 ^ (W - net.prefixLen) :=
              Nat.pos_pow_of_pos _ (by omega)
            have hrm := hright m hmj hmlen
            rcases hdisj with ⟨hadj, -⟩ | ⟨hadj, -⟩
            swap
            · omega
            have hpair := canonL_pair W hc (show j < m by omega) hmlen
            have hrj := hright j (Nat.le_refl j) (by omega)
            have := Net.sz_pos W (l.getD j Net.zero)
            have h5 := hpair.1
            omega
          · exact hF
  · intro n hn
    rw [List.mem_append, List.mem_append, List.mem_singleton] at hn
    rcases hn with (hn | hn) | hn
    · exact hw _ (List.mem_of_mem_take hn)
    · subst hn; exact hwf
    · exact hw _ (List.mem_of_mem_drop hn)

namespace PrefixSet

theorem no_cover_left (W : Nat) (l : List Net) (hc : CanonL W l) (hw : AllWf W l)
    {x : Net} (hx : x.Wf W) {v : Nat} (hvlen : v ≤ l.length)
    (hlo : ∀ k, k < v → Net.lt (l.getD k Net.zero) x)
    (hpred : v ≠ 0 → (l.getD (v - 1) Net.zero).contains W x = false) :
    ∀ k, k < v → (l.getD k Net.zero).contains W x = false := by
  intro k hk
  by_cases hkp : k = v - 1
  · subst hkp
    exact hpred (by omega)
  · rcases Bool.eq_false_or_eq_true
        ((l.getD k Net.zero).contains W x) with hT | hF
    · exfalso
      obtain ⟨-, -, h3⟩ :=
        (Net.contains_iff W (hw _ (getD_mem (by omega))) hx).1 hT
      have hpair := canonL_pair W hc (show k < v - 1 by omega)
        (show v - 1 < l.length by omega)
      have hlop := hlo (v - 1) (by omega)
      unfold Net.lt at hlop
      have h5 := hpair.1
      omega
    · exact hF

/-- `insert` preserves canonical form and well-formedness, and its result
covers the inserted prefix. -/
theorem insert_preserves (W : Nat) (l : List Net) (hc : CanonL W l) (hw : AllWf W l)
    {x : Net} (hx : x.Wf W) :
    CanonL W (insert W l x) ∧ AllWf W (insert W l x) ∧
      ∃ e ∈ insert W l x, e.contains W x = true := by
  have hsorted := canonL_pairwise_lt W hc
  unfold insert
  rcases hbs : binarySearch l x with i | v
  · refine ⟨hc, hw, ?_⟩
    obtain ⟨hi, he⟩ := (binarySearch_spec l x hsorted).1 i hbs
    exact ⟨x, by rw [← he]; exact getD_mem hi, Net.contains_refl W x⟩
  · obtain ⟨hvlen, hlo, hhi⟩ := (binarySearch_spec l x hsorted).2 v hbs
    by_cases hcond : v ≠ 0 ∧ (l.getD (v - 1) Net.zero).contains W x = true
    · simp only [if_pos hcond]
      obtain ⟨hv0, hpc⟩ := hcond
      have hvm1 : v - 1 < l.length := by omega
      have hpredwf : (l.getD (v - 1) Net.zero).Wf W := hw _ (getD_mem hvm1)
      have hja := jAdvance_spec W l hc hw _ hpredwf v hvlen
        (by
          intro k hk hk2
          have hpair := canonL_pair W hc (show v - 1 < k by omega) hk2
          exact ⟨lt_of_leftOf W hpair.1,
            not_contains_of_lt W hpredwf (hw _ (getD_mem hk2))
              (lt_of_leftOf W hpair.1)⟩)
      obtain ⟨hja1, hja2, hja3⟩ := hja
      have hins := insertLoop_spec W l hc hw _ (v - 1)
        (jAdvance W l (l.getD (v - 1) Net.zero) v) hpredwf (by omega) hja2
        (by
          intro k hk
          exact (canonL_pair W hc (show k < v - 1 by omega) hvm1).1)
        hja3
      obtain ⟨c1, c2, c3, c4, c5, c6, c7, c8, c9⟩ := hins
      have hsp := splice_canonical W l hc hw c1 (by omega) c4 c5 c6 c7 c8
      refine ⟨hsp.1, hsp.2,
        ⟨(insertLoop W l (l.getD (v - 1) Net.zero) (v - 1)
            (jAdvance W l (l.getD (v - 1) Net.zero) v)).1, by simp, ?_⟩⟩
      exact Net.contains_trans W c1 hpredwf hx c9 hpc
    · simp only [if_neg hcond]
      have hnc : ∀ k, k < v → (l.getD k Net.zero).contains W x = false := by
        refine no_cover_left W l hc hw hx hvlen hlo ?_
        intro hv0
        rcases Bool.eq_false_or_eq_true
            ((l.getD (v - 1) Net.zero).contains W x) with hT | hF
        · exact absurd ⟨hv0, hT⟩ hcond
        · exact hF
      have hja := jAdvance_spec W l hc hw x hx v hvlen
        (by
          intro k hk hk2
          exact ⟨hhi k hk hk2,
            not_contains_of_lt W hx (hw _ (getD_mem hk2)) (hhi k hk hk2)⟩)
      obtain ⟨hja1, hja2, hja3⟩ := hja
      have hins := insertLoop_spec W l hc hw x v (jAdvance W l x v) hx
        (by omega) hja2
        (by
          intro k hk
          exact leftOf_of_lt_not_contains W (hw _ (getD_mem (by omega))) hx
            (hlo k hk) (hnc k hk))
        hja3
      obtain ⟨c1, c2, c3, c4, c5, c6, c7, c8, c9⟩ := hins
      have hsp := splice_canonical W l hc hw c1 (by omega) c4 c5 c6 c7 c8
      refine ⟨hsp.1, hsp.2,
        ⟨(insertLoop W l x v (jAdvance W l x v)).1, by simp, c9⟩⟩

end PrefixSet

/-! ## Canonicity of construction from a vector (`From<Vec<_>>`) -/

theorem Net.ble_iff {a b : Net} :
    Net.ble a b = true ↔
      a.address < b.address ∨ (a.address = b.address ∧ a.prefixLen ≤ b.prefixLen) := by
  unfold Net.ble
  cases hcmp : Net.cmp a b
  · have hl := Net.cmp_eq_lt.1 hcmp
    unfold Net.lt at hl
    constructor
    · intro _
      omega
    · intro _
      rfl
  · have he := Net.cmp_eq_eq.1 hcmp
    subst he
    constructor
    · intro _
      omega
    · intro _
      rfl
  · have hg := Net.cmp_eq_gt.1 hcmp
    unfold Net.lt at hg
    constructor
    · intro hx
      exact Bool.noConfusion hx
    · intro hx
      exfalso
      omega

theorem Net.ble_trans {a b c : Net} (h1 : Net.ble a b = true)
    (h2 : Net.ble b c = true) : Net.ble a c = true := by
  rw [Net.ble_iff] at *
  omega

theorem Net.ble_total (a b : Net) : (Net.ble a b || Net.ble b a) = true := by
  rcases Bool.eq_false_or_eq_true (Net.ble a b) with h | h
  · rw [h]
    rfl
  · have h2 : Net.ble b a = true := by
      rw [Net.ble_iff]
      have h3 : ¬ (a.address < b.address ∨
          (a.address = b.address ∧ a.prefixLen ≤ b.prefixLen)) := by
        intro hx
        rw [← Net.ble_iff] at hx
        rw [h] at hx
        exact Bool.noConfusion hx
      omega
    rw [h, h2]
    rfl

namespace PrefixSet

/-- Invariant of the sibling-coalescing loop of the vector sweep. -/
theorem sibMerge_spec (W : Nat) :
    ∀ (stack : List Net) (x : Net), x.Wf W →
    (∀ s ∈ stack, s.Wf W) →
    List.Pairwise (fun a b => NIC W b a) stack →
    (∀ s ∈ stack, s.address + s.sz W ≤ x.address) →
    (sibMerge W stack x ≠ [] ∧
     List.Pairwise (fun a b => NIC W b a) (sibMerge W stack x) ∧
     (∀ s ∈ sibMerge W stack x, s.Wf W) ∧
     (∀ s ∈ sibMerge W stack x,
       (∃ t ∈ stack, s.address = t.address ∧ s.prefixLen ≤ t.prefixLen) ∨
         (s.address = x.address ∧ s.prefixLen ≤ x.prefixLen))) := by
  intro stack
  induction stack with
  | nil =>
    intro x hx hwf hpw hlo
    unfold sibMerge
    refine ⟨by simp, List.pairwise_singleton _ _, ?_, ?_⟩
    · intro s hs
      rw [List.mem_singleton] at hs
      rw [hs]; exact hx
    · intro s hs
      rw [List.mem_singleton] at hs
      right
      rw [hs]
      exact ⟨rfl, Nat.le_refl _⟩
  | cons t rest ih =>
    intro x hx hwf hpw hlo
    have hwt : t.Wf W := hwf t (List.mem_cons_self t rest)
    have hwr : ∀ s ∈ rest, s.Wf W := fun s hs => hwf s (List.mem_cons_of_mem t hs)
    rw [List.pairwise_cons] at hpw
    obtain ⟨hpt, hpr⟩ := hpw
    have hlot := hlo t (List.mem_cons_self t rest)
    unfold sibMerge
    by_cases hsib : siblings W t x = true
    · rw [if_pos hsib]
      obtain ⟨hlenEq, hlenNz, hdisj⟩ := siblings_spec W hwt hx hsib
      have hszt : t.sz W = 2 ^ (W - t.prefixLen) := rfl
      have hsztP : 0 < 2 ^ (W - t.prefixLen) := Nat.pos_pow_of_pos _ (by omega)
      rcases hdisj with ⟨hadj, hdvd⟩ | ⟨hadj, hdvd⟩
      swap
      · exfalso; omega
      obtain ⟨htW, htB, -⟩ := (Net.wf_iff W t).1 hwt
      have hidx : W - (t.prefixLen - 1) = W - t.prefixLen + 1 := by omega
      have hwf2 : (⟨t.address, t.prefixLen - 1⟩ : Net).Wf W := by
        rw [Net.wf_iff]
        refine ⟨?_, htB, ?_⟩
        · show t.prefixLen - 1 ≤ W
          omega
        · show 2 ^ (W - (t.prefixLen - 1)) ∣ t.address
          rw [hidx]
          exact hdvd
      have hrec := ih ⟨t.address, t.prefixLen - 1⟩ hwf2 hwr hpr
        (by
          intro s hs
          have := (hpt s hs).1
          show _ ≤ t.address
          omega)
      obtain ⟨r1, r2, r3, r4⟩ := hrec
      refine ⟨r1, r2, r3, ?_⟩
      intro s hs
      rcases r4 s hs with ⟨u, hu, he⟩ | hex
      · exact Or.inl ⟨u, List.mem_cons_of_mem t hu, he⟩
      · left
        refine ⟨t, List.mem_cons_self t rest, ?_, ?_⟩
        · exact hex.1
        · have : s.prefixLen ≤ t.prefixLen - 1 := hex.2
          omega
    · rw [if_neg hsib]
      have hsibF : siblings W t x = false := by
        rcases Bool.eq_false_or_eq_true (siblings W t x) with h2 | h2
        · exact absurd h2 hsib
        · exact h2
      refine ⟨by simp, ?_, ?_, ?_⟩
      · rw [List.pairwise_cons]
        constructor
        · intro s hs
          rcases List.mem_cons.1 hs with hst | hsr
          · rw [hst]
            exact ⟨hlot, hsibF⟩
          · refine ⟨?_, ?_⟩
            · have h5 := (hpt s hsr).1
              have := Net.sz_pos W t
              omega
            · -- a deeper sibling would leave no room for `t`
              rcases Bool.eq_false_or_eq_true (siblings W s x) with h2 | h2
              · exfalso
                obtain ⟨hlenEq, hlenNz, hdisj⟩ :=
                  siblings_spec W (hwr s hsr) hx h2
                have h5 := (hpt s hsr).1
                have h6 := hlo s (List.mem_cons_of_mem t hsr)
                have hszs : s.sz W = 2 ^ (W - s.prefixLen) := rfl
                have hszsP : 0 < 2 ^ (W - s.prefixLen) :=
                  Nat.pos_pow_of_pos _ (by omega)
                have := Net.sz_pos W t
                rcases hdisj with ⟨hadj, -⟩ | ⟨hadj, -⟩
                · omega
                · omega
              · exact h2
        · exact List.pairwise_cons.2 ⟨hpt, hpr⟩
      · intro s hs
        rcases List.mem_cons.1 hs with h2 | h2
        · rw [h2]; exact hx
        · exact hwf s h2
      · intro s hs
        rcases List.mem_cons.1 hs with h2 | h2
        · right; rw [h2]; exact ⟨rfl, Nat.le_refl _⟩
        · left
          rcases List.mem_cons.1 h2 with h3 | h3
          · exact ⟨t, List.mem_cons_self t rest, by rw [h3], by rw [h3]⟩
          · exact ⟨s, List.mem_cons_of_mem t h3, rfl, Nat.le_refl _⟩

end PrefixSet

namespace PrefixSet

theorem sweepStep_cons (W : Nat) (t : Net) (rest : List Net) (x : Net) :
    sweepStep W (t :: rest) x =
      if t.contains W x = true then sibMerge W rest t
      else sibMerge W (t :: rest) x := rfl

/-- One sweep iteration preserves the stack invariant. -/
theorem sweepStep_spec (W : Nat) (stack : List Net) (x : Net) (hx : x.Wf W)
    (hne : stack ≠ []) (hwf : ∀ s ∈ stack, s.Wf W)
    (hpw : List.Pairwise (fun a b => NIC W b a) stack)
    (hle : ∀ s ∈ stack, s.address < x.address ∨
      (s.address = x.address ∧ s.prefixLen ≤ x.prefixLen)) :
    sweepStep W stack x ≠ [] ∧
    List.Pairwise (fun a b => NIC W b a) (sweepStep W stack x) ∧
    (∀ s ∈ sweepStep W stack x, s.Wf W) ∧
    (∀ s ∈ sweepStep W stack x,
      (∃ t ∈ stack, s.address = t.address ∧ s.prefixLen ≤ t.prefixLen) ∨
        (s.address = x.address ∧ s.prefixLen ≤ x.prefixLen)) := by
  rcases stack with - | ⟨t, rest⟩
  · exact absurd rfl hne
  have hwt : t.Wf W := hwf t (List.mem_cons_self t rest)
  have hwr : ∀ s ∈ rest, s.Wf W := fun s hs => hwf s (List.mem_cons_of_mem t hs)
  rw [List.pairwise_cons] at hpw
  obtain ⟨hpt, hpr⟩ := hpw
  have hlet := hle t (List.mem_cons_self t rest)
  rw [sweepStep_cons]
  by_cases hcont : t.contains W x = true
  · rw [if_pos hcont]
    have hrec := sibMerge_spec W rest t hwt hwr hpr
      (fun s hs => (hpt s hs).1)
    obtain ⟨r1, r2, r3, r4⟩ := hrec
    refine ⟨r1, r2, r3, ?_⟩
    intro s hs
    rcases r4 s hs with ⟨u, hu, he⟩ | hex
    · exact Or.inl ⟨u, List.mem_cons_of_mem t hu, he⟩
    · exact Or.inl ⟨t, List.mem_cons_self t rest, hex.1, hex.2⟩
  · rw [if_neg hcont]
    have hcF : t.contains W x = false := by
      rcases Bool.eq_false_or_eq_true (t.contains W x) with h2 | h2
      · exact absurd h2 hcont
      · exact h2
    -- `x` is strictly above `t` in the order
    have hltx : Net.lt t x := by
      rcases hlet with h3 | h3
      · exact Or.inl h3
      · rcases Nat.eq_or_lt_of_le h3.2 with h4 | h4
        · exfalso
          have hcT : t.contains W x = true := by
            unfold Net.contains
            rw [if_neg (by omega), if_pos h4]
            exact beq_iff_eq.2 h3.1
          rw [hcT] at hcF
          exact Bool.noConfusion hcF
        · exact Or.inr ⟨h3.1, h4⟩
    have hlotx : t.address + t.sz W ≤ x.address :=
      leftOf_of_lt_not_contains W hwt hx hltx hcF
    have hrec := sibMerge_spec W (t :: rest) x hx hwf
      (List.pairwise_cons.2 ⟨hpt, hpr⟩)
      (by
        intro s hs
        rcases List.mem_cons.1 hs with h2 | h2
        · rw [h2]; exact hlotx
        · have h5 := (hpt s h2).1
          have := Net.sz_pos W t
          omega)
    exact hrec

/-- The sweep over a sorted tail keeps the stack canonical. -/
theorem sweep_fold (W : Nat) :
    ∀ (xs : List Net) (stack : List Net), stack ≠ [] →
    (∀ s ∈ stack, s.Wf W) → (∀ y ∈ xs, y.Wf W) →
    List.Pairwise (fun a b => NIC W b a) stack →
    List.Pairwise (fun a b => Net.ble a b = true) xs →
    (∀ s ∈ stack, ∀ y ∈ xs, s.address < y.address ∨
      (s.address = y.address ∧ s.prefixLen ≤ y.prefixLen)) →
    List.Pairwise (fun a b => NIC W b a) (xs.foldl (sweepStep W) stack) ∧
    (∀ s ∈ xs.foldl (sweepStep W) stack, s.Wf W) := by
  intro xs
  induction xs with
  | nil =>
    intro stack _ hwf _ hpw _ _
    exact ⟨hpw, hwf⟩
  | cons x rest ih =>
    intro stack hne hwf hxs hpw hsorted hinv
    have hx : x.Wf W := hxs x (List.mem_cons_self x rest)
    rw [List.pairwise_cons] at hsorted
    obtain ⟨hsx, hsr⟩ := hsorted
    have hstep := sweepStep_spec W stack x hx hne hwf hpw
      (fun s hs => hinv s hs x (List.mem_cons_self x rest))
    obtain ⟨s1, s2, s3, s4⟩ := hstep
    rw [List.foldl_cons]
    refine ih (sweepStep W stack x) s1 s3
      (fun y hy => hxs y (List.mem_cons_of_mem x hy)) s2 hsr ?_
    intro s hs y hy
    rcases s4 s hs with ⟨u, hu, he1, he2⟩ | ⟨he1, he2⟩
    · have := hinv u hu y (List.mem_cons_of_mem x hy)
      omega
    · have := Net.ble_iff.1 (hsx y hy)
      omega

/-- `From<Vec<_>>` produces a canonical, well-formed set. -/
theorem fromVec_canonical (W : Nat) (v : List Net) (hv : ∀ n ∈ v, n.Wf W) :
    CanonL W (fromVec W v) ∧ AllWf W (fromVec W v) := by
  unfold fromVec
  have hperm := List.mergeSort_perm v Net.ble
  have hsorted := @List.sorted_mergeSort Net Net.ble
    (fun a b c hab hbc => Net.ble_trans hab hbc)
    Net.ble_total v
  rcases hms : v.mergeSort Net.ble with - | ⟨h, t⟩
  · exact ⟨List.Pairwise.nil, by intro n hn; exact absurd hn (List.not_mem_nil n)⟩
  · have hmemv : ∀ n ∈ h :: t, n.Wf W := by
      intro n hn
      refine hv n ?_
      rw [← hms] at hn
      exact hperm.mem_iff.1 hn
    rw [hms] at hsorted
    rw [List.pairwise_cons] at hsorted
    obtain ⟨hsh, hst⟩ := hsorted
    have hfold := sweep_fold W t [h] (by simp)
      (by
        intro s hs
        rw [List.mem_singleton] at hs
        rw [hs]
        exact hmemv h (List.mem_cons_self h t))
      (fun y hy => hmemv y (List.mem_cons_of_mem h hy))
      (List.pairwise_singleton _ _) hst
      (by
        intro s hs y hy
        rw [List.mem_singleton] at hs
        rw [hs]
        exact Net.ble_iff.1 (hsh y hy))
    obtain ⟨f1, f2⟩ := hfold
    constructor
    · unfold CanonL
      rw [List.pairwise_reverse]
      exact f1
    · intro n hn
      rw [List.mem_reverse] at hn
      exact f2 n hn

end PrefixSet

namespace PrefixSet

/-- If some element covers `q`, `PrefixSet::contains` reports it. -/
theorem contains_complete (W : Nat) (l : List Net) (hc : CanonL W l)
    (hw : AllWf W l) {q : Net} (hq : q.Wf W)
    (hcov : ∃ e ∈ l, e.contains W q = true) : contains W l q = true := by
  have hsorted := canonL_pairwise_lt W hc
  unfold contains
  rcases hbs : binarySearch l q with i | v
  · rfl
  · obtain ⟨hvlen, hlo, hhi⟩ := (binarySearch_spec l q hsorted).2 v hbs
    obtain ⟨e, hme, hce⟩ := hcov
    obtain ⟨m, hmlen, hmeq⟩ := List.getElem_of_mem hme
    have hmgd : l.getD m Net.zero = e := by
      rw [List.getD_eq_getElem _ _ hmlen]; exact hmeq
    have hmv : m < v := by
      by_contra hge
      push_neg at hge
      have hlt := hhi m hge hmlen
      rw [hmgd] at hlt
      obtain ⟨k1, k2, -⟩ := (Net.contains_iff W (hw e hme) hq).1 hce
      unfold Net.lt at hlt
      omega
    have hv0 : v ≠ 0 := by omega
    by_cases hpred : (l.getD (v - 1) Net.zero).contains W q = true
    · simp only [if_neg hv0]
      exact hpred
    · exfalso
      have hnc := no_cover_left W l hc hw hq hvlen hlo
        (by
          intro _
          rcases Bool.eq_false_or_eq_true
              ((l.getD (v - 1) Net.zero).contains W q) with hT | hF
          · exact absurd hT hpred
          · exact hF)
      have := hnc m hmv
      rw [hmgd] at this
      rw [this] at hce
      exact Bool.noConfusion hce

/-- Conversely a positive `contains` is justified by some covering
element. -/
theorem contains_sound (W : Nat) (l : List Net) (hc : CanonL W l)
    (hw : AllWf W l) {q : Net}
    (h : contains W l q = true) : ∃ e ∈ l, e.contains W q = true := by
  have hsorted := canonL_pairwise_lt W hc
  unfold contains at h
  rcases hbs : binarySearch l q with i | v
  · obtain ⟨hi, he⟩ := (binarySearch_spec l q hsorted).1 i hbs
    exact ⟨q, by rw [← he]; exact getD_mem hi, Net.contains_refl W q⟩
  · rw [hbs] at h
    replace h : (if v = 0 then false
        else (l.getD (v - 1) Net.zero).contains W q) = true := h
    obtain ⟨hvlen, -, -⟩ := (binarySearch_spec l q hsorted).2 v hbs
    by_cases hv0 : v = 0
    · rw [if_pos hv0] at h
      exact absurd h (by simp)
    · rw [if_neg hv0] at h
      exact ⟨l.getD (v - 1) Net.zero, getD_mem (by omega), h⟩

/-- Inserting an already-covered prefix is a no-op. -/
theorem insert_covered_noop (W : Nat) (l : List Net) (hc : CanonL W l)
    (hw : AllWf W l) {p : Net} (hp : p.Wf W)
    (hcov : contains W l p = true) : insert W l p = l := by
  have hsorted := canonL_pairwise_lt W hc
  unfold insert
  unfold contains at hcov
  rcases hbs : binarySearch l p with i | v
  · rfl
  · rw [hbs] at hcov
    replace hcov : (if v = 0 then false
        else (l.getD (v - 1) Net.zero).contains W p) = true := hcov
    obtain ⟨hvlen, hlo, hhi⟩ := (binarySearch_spec l p hsorted).2 v hbs
    by_cases hv0 : v = 0
    · rw [if_pos hv0] at hcov
      exact absurd hcov (by simp)
    rw [if_neg hv0] at hcov
    have hvm1 : v - 1 < l.length := by omega
    simp only [if_pos (show v ≠ 0 ∧ (l.getD (v - 1) Net.zero).contains W p = true
      from ⟨hv0, hcov⟩)]
    -- the absorption loop stops immediately
    have hja : jAdvance W l (l.getD (v - 1) Net.zero) v = v := by
      rw [jAdvance]
      rw [dif_neg]
      intro hcon
      obtain ⟨hvl, hcc⟩ := hcon
      have hpair := canonL_pair W hc (show v - 1 < v by omega) hvl
      have := not_contains_of_leftOf W (hw _ (getD_mem hvm1)) (hw _ (getD_mem hvl))
        hpair.1
      rw [this] at hcc
      exact Bool.noConfusion hcc
    rw [hja]
    -- the sibling loop stops immediately
    have hloop : insertLoop W l (l.getD (v - 1) Net.zero) (v - 1) v =
        (l.getD (v - 1) Net.zero, v - 1, v) := by
      rw [insertLoop]
      rw [dif_neg, dif_neg]
      · intro hcon
        obtain ⟨hi0, hsib⟩ := hcon
        have hpair := canonL_pair W hc (show v - 1 - 1 < v - 1 by omega) hvm1
        rw [hpair.2] at hsib
        exact Bool.noConfusion hsib
      · intro hcon
        obtain ⟨hvl, hsib⟩ := hcon
        have hpair := canonL_pair W hc (show v - 1 < v by omega) hvl
        rw [hpair.2] at hsib
        exact Bool.noConfusion hsib
    rw [hloop]
    show l.take (v - 1) ++ [l.getD (v - 1) Net.zero] ++ l.drop v = l
    conv_rhs => rw [← List.take_append_drop (v - 1) l]
    rw [List.drop_eq_getElem_cons hvm1]
    rw [List.getD_eq_getElem _ _ hvm1]
    rw [show v - 1 + 1 = v by omega]
    rw [List.append_assoc, List.singleton_append]

/-- `insert` is idempotent on canonical sets. -/
theorem insert_idempotent (W : Nat) (l : List Net) (hc : CanonL W l)
    (hw : AllWf W l) {x : Net} (hx : x.Wf W) :
    insert W (insert W l x) x = insert W l x := by
  obtain ⟨hc2, hw2, hcov⟩ := insert_preserves W l hc hw hx
  exact insert_covered_noop W _ hc2 hw2 hx (contains_complete W _ hc2 hw2 hx hcov)

end PrefixSet

/-- The PrefixSet states reachable by the operations named in the
specification: `new`, `insert` of valid prefixes, and construction from
an arbitrary vector of valid prefixes. -/
inductive Reachable (W : Nat) : List Net → Prop
  | new : Reachable W []
  | ins {l : List Net} {x : Net} : Reachable W l → x.Wf W →
      Reachable W (PrefixSet.insert W l x)
  | ofVec {v : List Net} : (∀ n ∈ v, n.Wf W) →
      Reachable W (PrefixSet.fromVec W v)

theorem reachable_canonL (W : Nat) {l : List Net} (h : Reachable W l) :
    CanonL W l ∧ AllWf W l := by
  induction h with
  | new => exact ⟨List.Pairwise.nil, fun n hn => absurd hn (List.not_mem_nil n)⟩
  | ins hr hx ih =>
    obtain ⟨hcl, hwl⟩ := ih
    have := PrefixSet.insert_preserves W _ hcl hwl hx
    exact ⟨this.1, this.2.1⟩
  | ofVec hv => exact PrefixSet.fromVec_canonical W _ hv

/-! ## Claim C1: canonical form of every reachable PrefixSet -/

/-- **C1.**  For every sequence of PrefixSet operations (`new`, `insert`
of valid prefixes, construction from an arbitrary list of valid
prefixes), the resulting set is in canonical form: strictly sorted by
`(address, prefix_len)`, no element contains another, and no two
same-length siblings both remain. -/
theorem C1_prefixset_canonical (W : Nat) {l : List Net} (h : Reachable W l) :
    Canonical W l := by
  obtain ⟨hc, hw⟩ := reachable_canonL W h
  exact (canonical_iff_canonL W hw).2 hc

theorem C1_prefixset_canonical_witness :
    Canonical 32 (PrefixSet.insert 32 (PrefixSet.fromVec 32
      [⟨0x0A000000, 8⟩, ⟨0xC0A80000, 16⟩]) ⟨0xC6336400, 24⟩) :=
  C1_prefixset_canonical 32
    (Reachable.ins (Reachable.ofVec (by decide)) (by decide))

/-! ## Claim C7: correctness of `PrefixSet::contains` -/

/-- **C7.**  On a canonical set, `contains` returns `true` for every
element of the set and `false` for every valid prefix not covered by any
element (the decision is by binary search for the greatest element `≤`
the query followed by a containment test, exactly as embedded in
`PrefixSet.contains`). -/
theorem C7_contains_correct (W : Nat) (l : List Net) (hcan : Canonical W l)
    (hw : AllWf W l) {p q : Net} (hp : p.Wf W) (hq : q.Wf W) :
    (p ∈ l → PrefixSet.contains W l p = true) ∧
      ((∀ e ∈ l, e.contains W q = false) → PrefixSet.contains W l q = false) := by
  have hc := (canonical_iff_canonL W hw).1 hcan
  constructor
  · intro hm
    exact PrefixSet.contains_complete W l hc hw hp ⟨p, hm, Net.contains_refl W p⟩
  · intro hnone
    rcases Bool.eq_false_or_eq_true (PrefixSet.contains W l q) with hT | hF
    · exfalso
      obtain ⟨e, hme, hce⟩ := PrefixSet.contains_sound W l hc hw hT
      rw [hnone e hme] at hce
      exact Bool.noConfusion hce
    · exact hF

theorem C7_contains_correct_witness :
    PrefixSet.contains 32 [⟨0x0A000000, 8⟩] ⟨0x0A000000, 8⟩ = true ∧
      PrefixSet.contains 32 [⟨0x0A000000, 8⟩] ⟨0x0B000000, 8⟩ = false :=
  ⟨(@C7_contains_correct 32 [⟨0x0A000000, 8⟩] (by decide) (by decide)
      ⟨0x0A000000, 8⟩ ⟨0x0B000000, 8⟩ (by decide) (by decide)).1 (by decide),
    (@C7_contains_correct 32 [⟨0x0A000000, 8⟩] (by decide) (by decide)
      ⟨0x0A000000, 8⟩ ⟨0x0B000000, 8⟩ (by decide) (by decide)).2 (by decide)⟩

/-! ## Claim C10: `insert` of a contained prefix is a no-op -/

/-- **C10.**  For every canonical PrefixSet and every valid prefix
already contained in it (whether as an element or covered by a larger
element), `insert` leaves the set unchanged; consequently `insert` is
idempotent. -/
theorem C10_insert_noop_idempotent (W : Nat) (l : List Net)
    (hcan : Canonical W l) (hw : AllWf W l) {p x : Net} (hp : p.Wf W)
    (hx : x.Wf W) :
    (PrefixSet.contains W l p = true → PrefixSet.insert W l p = l) ∧
      PrefixSet.insert W (PrefixSet.insert W l x) x = PrefixSet.insert W l x := by
  have hc := (canonical_iff_canonL W hw).1 hcan
  exact ⟨fun hcov => PrefixSet.insert_covered_noop W l hc hw hp hcov,
    PrefixSet.insert_idempotent W l hc hw hx⟩

set_option maxRecDepth 8000 in
theorem C10_insert_noop_idempotent_witness :
    (PrefixSet.contains 32 [⟨0x0A000000, 8⟩] ⟨0x0A000000, 9⟩ = true →
        PrefixSet.insert 32 [⟨0x0A000000, 8⟩] ⟨0x0A000000, 9⟩ =
          [⟨0x0A000000, 8⟩]) ∧
      PrefixSet.insert 32 (PrefixSet.insert 32 [⟨0x0A000000, 8⟩]
          ⟨0x0A000000, 9⟩) ⟨0x0A000000, 9⟩ =
        PrefixSet.insert 32 [⟨0x0A000000, 8⟩] ⟨0x0A000000, 9⟩ :=
  @C10_insert_noop_idempotent 32 [⟨0x0A000000, 8⟩] (by decide) (by decide)
    ⟨0x0A000000, 9⟩ ⟨0x0A000000, 9⟩ (by decide) (by decide)

/-! ## Association lists

The Rust code keeps peers in `HashMap`s.  The embedding uses association
lists: `assocLookup` is `get`, `updateEntry` is the in-place mutation of
one entry's value, and the vacant arm of the `entry` API appends. -/

def assocLookup {κ α : Type} [DecidableEq κ] : List (κ × α) → κ → Option α
  | [], _ => none
  | (k2, v) :: rest, k => if k2 = k then some v else assocLookup rest k

def updateEntry {κ α : Type} [DecidableEq κ] :
    List (κ × α) → κ → (α → α) → List (κ × α)
  | [], _, _ => []
  | (k2, v) :: rest, k, f =>
    if k2 = k then (k2, f v) :: rest else (k2, v) :: updateEntry rest k f

/-! ## Config builder (`src/manager/builder.rs`)

Keys, endpoints and secrets are opaque values compared only for
equality; `Nat` stands in for all three.  `Source.config` carries the
fields the builder reads: `name`, `psk`, the two prefix sets (as their
backing canonical vectors) and `allow_road_warriors`. -/

abbrev Key : Type := Nat

abbrev Endpoint : Type := Nat

abbrev Secret : Type := Nat

structure SourceConfig where
  name : String
  psk : Option Secret
  ipv4 : List Net
  ipv6 : List Net
  allow_road_warriors : Bool
deriving DecidableEq

structure Source where
  config : SourceConfig
deriving DecidableEq

/-- `config::Peer`: a per-peer override block of the global config. -/
structure PeerOverride where
  source : Option String
  endpoint : Option Endpoint
  psk : Option Secret
  keepalive : Option Nat
deriving DecidableEq

structure GlobalConfig where
  min_keepalive : Nat
  max_keepalive : Nat
  peers : List (Key × PeerOverride)
deriving DecidableEq

/-- `GlobalConfig::fix_keepalive` (`src/config.rs` lines 49-57). -/
def GlobalConfig.fix_keepalive (gc : GlobalConfig) (k : Nat) : Nat :=
  let k1 := if gc.max_keepalive ≠ 0 ∧ (k = 0 ∨ k > gc.max_keepalive) then
    gc.max_keepalive else k
  if k1 ≠ 0 ∧ k1 < gc.min_keepalive then gc.min_keepalive else k1

/-- `proto::Peer` as the builder reads it (public key, advertised
prefixes, requested keepalive). -/
structure ProtoPeer where
  public_key : Key
  ipv4 : List Net
  ipv6 : List Net
  keepalive : Nat
deriving DecidableEq

structure Server where
  peer : ProtoPeer
  endpoint : Endpoint
deriving DecidableEq

structure RoadWarrior where
  peer : ProtoPeer
  base : Key
deriving DecidableEq

/-- `model::Peer`: one entry of the built config. -/
structure ModelPeer where
  endpoint : Option Endpoint
  psk : Option Secret
  keepalive : Nat
  ipv4 : List Net
  ipv6 : List Net
deriving DecidableEq

/-- `builder::Error`. -/
structure BuildError where
  src : String
  peer : Key
  important : Bool
  err : String
deriving DecidableEq

structure PeerContact where
  endpoint : Option Endpoint
  psk : Option Secret
  keepalive : Nat
deriving DecidableEq

/-- The builder's mutable state: the config under construction and the
accumulated error vector. -/
structure BuilderState where
  peers : List (Key × ModelPeer)
  errs : List BuildError
deriving DecidableEq

/-- The override block of `peer_contact` (`src/manager/builder.rs`
lines 187-197): each present override field replaces the default. -/
def override_contact (r : PeerContact) (pc : PeerOverride) : PeerContact :=
  { endpoint := (match pc.endpoint with | some e => some e | none => r.endpoint)
    psk := (match pc.psk with | some k => some k | none => r.psk)
    keepalive := (match pc.keepalive with | some k => k | none => r.keepalive) }

/-- `peer_contact` (`src/manager/builder.rs` lines 169-201). -/
def peer_contact (gc : GlobalConfig) (src : Source) (p : ProtoPeer) :
    Sum BuildError PeerContact :=
  let r : PeerContact :=
    { psk := src.config.psk, endpoint := none,
      keepalive := gc.fix_keepalive p.keepalive }
  match assocLookup gc.peers p.public_key with
  | none => Sum.inr r
  | some pc =>
    match pc.source with
    | some want_src =>
      if want_src ≠ src.config.name then
        Sum.inl { src := src.config.name, peer := p.public_key,
                  important := true, err := "peer source not allowed" }
      else Sum.inr (override_contact r pc)
    | none => Sum.inr (override_contact r pc)

/-- A fresh entry as the vacant arm of `insert_peer` builds it. -/
def freshPeer (contact : PeerContact) : ModelPeer :=
  { endpoint := contact.endpoint, psk := contact.psk,
    keepalive := contact.keepalive, ipv4 := [], ipv6 := [] }

/-- `insert_peer` (`src/manager/builder.rs` lines 146-167): an occupied
entry records a duplicate-key error and is reused, a vacant entry gets a
fresh peer from the contact data. -/
def insert_peer (st : BuilderState) (src : Source) (p : ProtoPeer)
    (contact : PeerContact) : BuilderState :=
  match assocLookup st.peers p.public_key with
  | some _ =>
    { st with errs := st.errs ++
        [{ src := src.config.name, peer := p.public_key, important := true,
           err := "duplicate public key" }] }
  | none =>
    { st with peers := st.peers ++ [(p.public_key, freshPeer contact)] }

/-- `add_peer` (`src/manager/builder.rs` lines 203-232): keep exactly
the advertised prefixes the source's sets contain (`added` records that
one survived, `removed` that one was dropped), and record one error when
any was dropped, important iff none survived. -/
def add_peer (ent : ModelPeer) (src : Source) (p : ProtoPeer) :
    ModelPeer × List BuildError :=
  let keep4 := p.ipv4.filter fun i => PrefixSet.contains 32 src.config.ipv4 i
  let keep6 := p.ipv6.filter fun i => PrefixSet.contains 128 src.config.ipv6 i
  let added := !(keep4.isEmpty && keep6.isEmpty)
  let removed := !(keep4.length == p.ipv4.length && keep6.length == p.ipv6.length)
  ({ ent with ipv4 := ent.ipv4 ++ keep4, ipv6 := ent.ipv6 ++ keep6 },
    if removed then
      [{ src := src.config.name, peer := p.public_key, important := !added,
         err := if added then "some IPs removed" else "all IPs removed" }]
    else [])

/-- The `add_peer` call on the `&mut` entry the call sites obtained:
look the entry up again by key and replace it with the merged value,
appending the merge's errors. -/
def merge_at (st : BuilderState) (src : Source) (p : ProtoPeer)
    (k : Key) : BuilderState :=
  match assocLookup st.peers k with
  | none => st
  | some ent =>
    { peers := updateEntry st.peers k fun _ => (add_peer ent src p).1,
      errs := st.errs ++ (add_peer ent src p).2 }

/-- `ConfigBuilder::add_server` (`src/manager/builder.rs` lines
82-102). -/
def add_server (pk : Key) (gc : GlobalConfig) (st : BuilderState)
    (src : Source) (p : Server) : BuilderState :=
  match peer_contact gc src p.peer with
  | Sum.inl e => { st with errs := st.errs ++ [e] }
  | Sum.inr contact0 =>
    let contact := if contact0.endpoint = none then
      { contact0 with endpoint := some p.endpoint } else contact0
    if p.peer.public_key = pk then st
    else
      merge_at (insert_peer st src p.peer contact) src p.peer
        p.peer.public_key

/-- `ConfigBuilder::add_road_warrior` (`src/manager/builder.rs` lines
105-143). -/
def add_road_warrior (pk : Key) (gc : GlobalConfig) (st : BuilderState)
    (src : Source) (p : RoadWarrior) : BuilderState :=
  match peer_contact gc src p.peer with
  | Sum.inl e => { st with errs := st.errs ++ [e] }
  | Sum.inr contact =>
    if p.peer.public_key = pk then
      { st with errs := st.errs ++
          [{ src := src.config.name, peer := p.peer.public_key,
             important := true,
             err := "the local peer cannot be a road warrior" }] }
    else if p.base = pk then
      if src.config.allow_road_warriors = false then
        { st with errs := st.errs ++
            [{ src := src.config.name, peer := p.peer.public_key,
               important := true,
               err := "road warriors from this source not allowed" }] }
      else
        merge_at (insert_peer st src p.peer contact) src p.peer
          p.peer.public_key
    else
      match assocLookup st.peers p.base with
      | some _ => merge_at st src p.peer p.base
      | none =>
        { st with errs := st.errs ++
            [{ src := src.config.name, peer := p.peer.public_key,
               important := true, err := "unknown base peer" }] }

/-- One builder call: `add_server` or `add_road_warrior` with its
source. -/
inductive Call where
  | server (src : Source) (s : Server)
  | roadWarrior (src : Source) (r : RoadWarrior)
deriving DecidableEq

def callSrc : Call → Source
  | .server src _ => src
  | .roadWarrior src _ => src

def runCall (pk : Key) (gc : GlobalConfig) (st : BuilderState) :
    Call → BuilderState
  | .server src s => add_server pk gc st src s
  | .roadWarrior src r => add_road_warrior pk gc st src r

/-- `ConfigBuilder::new` followed by any sequence of calls and
`build`. -/
def runCalls (pk : Key) (gc : GlobalConfig) (calls : List Call) :
    BuilderState :=
  calls.foldl (runCall pk gc) { peers := [], errs := [] }

/-! ## Device adapter `apply_diff` (`src/wg.rs` lines 244-323)

The adapter renders endpoints and prefixes to strings before handing
them to the `wg` utility; only equality of the rendered forms matters
here, so entries hold rendered strings.  `WgInvocation` records what the
function hands the child process: the per-peer argument groups, the
removal argument groups, the lines written to the child's stdin, and
whether a child was spawned at all. -/

structure WgPeer where
  endpoint : Option String
  psk : Option String
  keepalive : Nat
  ipv4 : List String
  ipv6 : List String
deriving DecidableEq

structure WgConfig where
  peers : List (String × WgPeer)
deriving DecidableEq

/-- The comma-joined `allowed-ips` value (`src/wg.rs` lines 279-294). -/
def joinIps (conf : WgPeer) : String :=
  String.intercalate "," (conf.ipv4 ++ conf.ipv6)

/-- The `endpoint` arguments (`src/wg.rs` lines 266-271): emitted only
when the old endpoint differs from the new one and the new one is
present. -/
def endpointArgs (conf : WgPeer) (oldEndpoint : Option String) :
    List String :=
  if oldEndpoint ≠ conf.endpoint then
    match conf.endpoint with
    | some e => ["endpoint", e]
    | none => []
  else []

/-- The preshared-key arguments (`src/wg.rs` lines 273-277): emitted
whenever the new entry's PSK is present. -/
def pskArgs (conf : WgPeer) : List String :=
  match conf.psk with
  | some _ => ["preshared-key", "/dev/stdin"]
  | none => []

/-- The stdin lines the entry contributes (`src/wg.rs` lines 276 and
313-315): the stored PSK when present, nothing otherwise. -/
def pskLines (conf : WgPeer) : List String :=
  match conf.psk with
  | some s => [s]
  | none => []

/-- The argument group `apply_diff` emits for one processed peer
(`src/wg.rs` lines 263-297). -/
def peerArgGroup (k : String) (conf : WgPeer) (oldEndpoint : Option String) :
    List String :=
  ["peer", k] ++ endpointArgs conf oldEndpoint ++ pskArgs conf ++
    ["allowed-ips", joinIps conf]

/-- The peers of `new` the loop at `src/wg.rs` lines 252-298 processes:
those absent from `old` or with a changed entry, each with the old
endpoint the loop remembers. -/
def processedPeers (old new : WgConfig) :
    List (String × WgPeer × Option String) :=
  new.peers.filterMap fun kv =>
    match assocLookup old.peers kv.1 with
    | some oldp =>
      if oldp = kv.2 then none else some (kv.1, kv.2, oldp.endpoint)
    | none => some (kv.1, kv.2, none)

/-- The keys of `old` absent from `new` (`src/wg.rs` lines 300-307). -/
def removedKeys (old new : WgConfig) : List String :=
  (old.peers.filter fun kv => (assocLookup new.peers kv.1).isNone).map
    Prod.fst

structure WgInvocation where
  ifname : String
  peerArgs : List String
  removeArgs : List String
  stdin : List String
  invoked : Bool
deriving DecidableEq

/-- `Device::apply_diff` (`src/wg.rs` lines 244-323).  The assembled
command line is `wg set <ifname>` followed by `peerArgs ++ removeArgs`;
`stdin` holds one line per collected PSK; the child is spawned
unconditionally at line 309. -/
def apply_diff (ifname : String) (old new : WgConfig) : WgInvocation :=
  { ifname := ifname
    peerArgs := (processedPeers old new).flatMap fun t =>
      peerArgGroup t.1 t.2.1 t.2.2
    removeArgs := (removedKeys old new).flatMap fun k => ["peer", k, "remove"]
    stdin := (processedPeers old new).flatMap fun t => pskLines t.2.1
    invoked := true }

/-! ## Rust `std::time::Duration` arithmetic

`Dur` mirrors `Duration`: whole seconds plus nanoseconds below 10^9.
`add`, `div` and `min` follow the standard library's implementations;
the derived order is lexicographic on `(secs, nanos)`. -/

def NANOS_PER_SEC : Nat := 1000000000

structure Dur where
  secs : Nat
  nanos : Nat
deriving DecidableEq

def Dur.fromSecs (s : Nat) : Dur := ⟨s, 0⟩

def Dur.add (a b : Dur) : Dur :=
  let n := a.nanos + b.nanos
  if n ≥ NANOS_PER_SEC then ⟨a.secs + b.secs + 1, n - NANOS_PER_SEC⟩
  else ⟨a.secs + b.secs, n⟩

def Dur.div (d : Dur) (rhs : Nat) : Dur :=
  let secsQ := d.secs / rhs
  let carry := d.secs - secsQ * rhs
  let extra := carry * NANOS_PER_SEC / rhs
  ⟨secsQ, d.nanos / rhs + extra⟩

def Dur.le (a b : Dur) : Prop :=
  a.secs < b.secs ∨ (a.secs = b.secs ∧ a.nanos ≤ b.nanos)

instance (a b : Dur) : Decidable (Dur.le a b) := by
  unfold Dur.le; infer_instance

/-- `Ord::min` on `Duration`. -/
def Dur.min (a b : Dur) : Dur := if Dur.le a b then a else b

/-! ## Updater (`src/manager/updater.rs`)

A `Slot` is the per-source state `update` touches: the parsed document
(a `Nat` stands in), the monotonic instant of the next update (an
instant is a duration since an arbitrary epoch) and the stored backoff.
The fetch's outcome is passed in as `fetch` (`some d` on success), and
`now` is the instant sampled right after the fetch returns. -/

structure Slot where
  data : Nat
  next_update : Dur
  backoff : Option Dur
deriving DecidableEq

/-- `Updater::refresh_time` (`src/manager/updater.rs` lines 100-102). -/
def refresh_time (refresh_sec : Nat) : Dur := Dur.fromSecs refresh_sec

/-- `Updater::update` (`src/manager/updater.rs` lines 71-98).  The
cache write-through on success does not touch the slot. -/
def update (refresh_sec : Nat) (s : Slot) (fetch : Option Nat)
    (now : Dur) : Slot × (Bool × Dur) :=
  let refresh := refresh_time refresh_sec
  match fetch with
  | some d =>
    ({ data := d, backoff := none, next_update := now.add refresh },
      (true, now))
  | none =>
    let b := s.backoff.getD (Dur.min (Dur.fromSecs 10) (refresh.div 10))
    ({ s with next_update := now.add b,
              backoff := some (Dur.min (b.add (b.div 3)) (refresh.div 3)) },
      (false, now))

/-! ## Binary deserialisation of prefixes (`src/model/ip.rs` lines
118-128)

The non-human-readable serde path reads the fixed-size buffer of the
address octets (big-endian) followed by the prefix length, then applies
the check written in the source: `if r.is_valid() { return Err(...) }`
- note the missing negation. -/

def deserializeNet (W bytes : Nat) (buf : List Nat) : Option Net :=
  if buf.length = bytes + 1 then
    let r : Net := ⟨(buf.take bytes).foldl (fun a b => a * 256 + b) 0,
                    buf.getD bytes 0⟩
    if r.isValid W then none else some r
  else none

/-! ## Claim C8: binary deserialisation validity check -/

/-- **C8** (code bug).  The binary deserializer's validity check at
`src/model/ip.rs` line 124 is inverted: it reads `if r.is_valid()`
where rejecting an invalid prefix needs `if !r.is_valid()`.  The buffer
`[192, 0, 2, 5, 32]`, which encodes the valid prefix `192.0.2.5/32`, is
rejected, while `[0, 0, 0, 1, 0]`, which encodes the invalid prefix
`0.0.0.1/0` (nonzero host bits), is accepted. -/
theorem C8_deserialize_inverted :
    Net.isValid 32 ⟨0xC0000205, 32⟩ = true ∧
      deserializeNet 32 4 [192, 0, 2, 5, 32] = none ∧
      Net.isValid 32 ⟨1, 0⟩ = false ∧
      deserializeNet 32 4 [0, 0, 0, 1, 0] = some ⟨1, 0⟩ := by
  refine ⟨by decide, by decide, by decide, by decide⟩

/-! ## Claim C9: updater backoff arithmetic -/

theorem Dur.le_refl (a : Dur) : Dur.le a a := Or.inr ⟨rfl, Nat.le_refl _⟩

theorem Dur.min_le_right (a b : Dur) : Dur.le (Dur.min a b) b := by
  unfold Dur.min
  split
  · assumption
  · exact Dur.le_refl b

/-- **C9.**  On a failed fetch with refresh period `R`, the retry delay
`b` is the stored backoff if set, else `min(10 s, R/10)`; `next_update`
becomes `now + b` with `now` the instant sampled after the fetch; the
stored backoff becomes `min(b + b/3, R/3)` (in particular it never
exceeds `R/3`); and the call returns `(false, now)`.  On a successful
fetch the document is replaced, the backoff cleared, `next_update` set
to `now + R`, and `(true, now)` returned. -/
theorem C9_updater_backoff (R : Nat) (s : Slot) (now : Dur) :
    (∀ d, update R s (some d) now =
      ({ data := d, next_update := now.add (refresh_time R),
         backoff := none }, (true, now))) ∧
    (update R s none now =
      ({ s with
          next_update := now.add (s.backoff.getD
            (Dur.min (Dur.fromSecs 10) ((refresh_time R).div 10))),
          backoff := some (Dur.min
            ((s.backoff.getD (Dur.min (Dur.fromSecs 10)
                ((refresh_time R).div 10))).add
              ((s.backoff.getD (Dur.min (Dur.fromSecs 10)
                ((refresh_time R).div 10))).div 3))
            ((refresh_time R).div 3)) },
        (false, now))) ∧
    Dur.le ((update R s none now).1.backoff.getD (Dur.fromSecs 0))
      ((refresh_time R).div 3) := by
  refine ⟨fun d => rfl, rfl, ?_⟩
  exact Dur.min_le_right _ _

/-! ## Association-list lemmas -/

theorem assocLookup_mem {κ α : Type} [DecidableEq κ] :
    ∀ {m : List (κ × α)} {k : κ} {v : α},
      assocLookup m k = some v → (k, v) ∈ m := by
  intro m
  induction m with
  | nil => intro k v h; simp [assocLookup] at h
  | cons kv rest ih =>
    intro k v h
    obtain ⟨k2, v2⟩ := kv
    by_cases hk : k2 = k
    · subst hk
      simp [assocLookup] at h
      subst h
      exact List.mem_cons_self _ _
    · simp only [assocLookup, if_neg hk] at h
      exact List.mem_cons_of_mem _ (ih h)

theorem assocLookup_eq_some_of_mem_nodup {κ α : Type} [DecidableEq κ] :
    ∀ {m : List (κ × α)}, (m.map Prod.fst).Nodup →
      ∀ {k : κ} {v : α}, (k, v) ∈ m → assocLookup m k = some v := by
  intro m
  induction m with
  | nil => intro _ k v h; cases h
  | cons kv rest ih =>
    intro hnd k v h
    obtain ⟨k2, v2⟩ := kv
    rw [List.map_cons, List.nodup_cons] at hnd
    rcases List.mem_cons.1 h with heq | hm
    · cases heq
      simp [assocLookup]
    · have hne : k2 ≠ k := by
        intro hkk
        subst hkk
        exact hnd.1 (by simpa using List.mem_map_of_mem Prod.fst hm)
      simp only [assocLookup, if_neg hne]
      exact ih hnd.2 hm

theorem assocLookup_isSome_of_mem {κ α : Type} [DecidableEq κ] :
    ∀ {m : List (κ × α)} {k : κ} {v : α},
      (k, v) ∈ m → (assocLookup m k).isSome = true := by
  intro m
  induction m with
  | nil => intro k v h; cases h
  | cons kv rest ih =>
    intro k v h
    obtain ⟨k2, v2⟩ := kv
    rcases List.mem_cons.1 h with heq | hm
    · cases heq
      simp [assocLookup]
    · by_cases hk : k2 = k
      · simp [assocLookup, hk]
      · simp only [assocLookup, if_neg hk]
        exact ih hm

/-! ## Claim C3: `apply_diff` of equal configs -/

/-- **C3** (amended).  For every config `C` whose keys are distinct (as
they are in a `HashMap`), `apply_diff(C, C)` emits no per-peer argument
groups, no removals, and no stdin lines; the `wg` child process is
nonetheless spawned unconditionally (`src/wg.rs` line 309 runs
regardless of whether any argument beyond `set <ifname>` was added). -/
theorem C3_apply_diff_self (ifname : String) (C : WgConfig)
    (hnd : (C.peers.map Prod.fst).Nodup) :
    (apply_diff ifname C C).peerArgs = [] ∧
      (apply_diff ifname C C).removeArgs = [] ∧
      (apply_diff ifname C C).stdin = [] ∧
      (apply_diff ifname C C).invoked = true := by
  have hproc : processedPeers C C = [] := by
    apply List.filterMap_eq_nil.2
    intro kv hkv
    obtain ⟨k, v⟩ := kv
    have hlk : assocLookup C.peers k = some v :=
      assocLookup_eq_some_of_mem_nodup hnd hkv
    simp [hlk]
  have hrem : removedKeys C C = [] := by
    unfold removedKeys
    have hf : (C.peers.filter fun kv => (assocLookup C.peers kv.1).isNone) = [] := by
      apply List.filter_eq_nil.2
      intro kv hkv
      obtain ⟨k, v⟩ := kv
      have hs := assocLookup_isSome_of_mem hkv
      intro hnone
      rw [Option.isNone_iff_eq_none] at hnone
      rw [hnone] at hs
      exact Bool.noConfusion hs
    rw [hf]
    rfl
  refine ⟨?_, ?_, ?_, rfl⟩
  · show (processedPeers C C).flatMap _ = []
    rw [hproc]
    rfl
  · show (removedKeys C C).flatMap _ = []
    rw [hrem]
    rfl
  · show (processedPeers C C).flatMap _ = []
    rw [hproc]
    rfl

theorem C3_apply_diff_self_witness :
    (apply_diff "wg0"
        ⟨[("A", ⟨none, some "P", 10, ["10.0.0.0/8"], []⟩)]⟩
        ⟨[("A", ⟨none, some "P", 10, ["10.0.0.0/8"], []⟩)]⟩).peerArgs = [] ∧
      (apply_diff "wg0"
        ⟨[("A", ⟨none, some "P", 10, ["10.0.0.0/8"], []⟩)]⟩
        ⟨[("A", ⟨none, some "P", 10, ["10.0.0.0/8"], []⟩)]⟩).removeArgs = [] ∧
      (apply_diff "wg0"
        ⟨[("A", ⟨none, some "P", 10, ["10.0.0.0/8"], []⟩)]⟩
        ⟨[("A", ⟨none, some "P", 10, ["10.0.0.0/8"], []⟩)]⟩).stdin = [] ∧
      (apply_diff "wg0"
        ⟨[("A", ⟨none, some "P", 10, ["10.0.0.0/8"], []⟩)]⟩
        ⟨[("A", ⟨none, some "P", 10, ["10.0.0.0/8"], []⟩)]⟩).invoked = true :=
  C3_apply_diff_self "wg0"
    ⟨[("A", ⟨none, some "P", 10, ["10.0.0.0/8"], []⟩)]⟩ (by decide)

/-- Counterexample to C3 as stated: with `C` the empty config,
`apply_diff(C, C)` emits no per-peer arguments and no removals, yet the
utility is invoked all the same — the code has no emptiness test before
spawning. -/
theorem C3_apply_diff_self_cex :
    (apply_diff "wg0" ⟨[]⟩ ⟨[]⟩).peerArgs = [] ∧
      (apply_diff "wg0" ⟨[]⟩ ⟨[]⟩).removeArgs = [] ∧
      (apply_diff "wg0" ⟨[]⟩ ⟨[]⟩).invoked = true :=
  ⟨rfl, rfl, rfl⟩

/-! ## Claim C4: preshared-key emission in `apply_diff` -/

/-- **C4** (amended).  For every processed peer, the preshared-key
argument pair `preshared-key /dev/stdin` is emitted if and only if the
*new* entry's PSK is present — the old PSK is never consulted — and in
that case the one stdin line contributed is the stored PSK string.  When
the new PSK is absent (including a PSK being cleared), no argument and
no stdin line is produced.  The child's stdin is exactly the
concatenation of the processed entries' PSK lines. -/
theorem C4_psk_emission (k : String) (conf : WgPeer) (oldE : Option String) :
    (conf.psk.isSome = true →
      peerArgGroup k conf oldE =
        ["peer", k] ++ endpointArgs conf oldE ++
          ["preshared-key", "/dev/stdin"] ++ ["allowed-ips", joinIps conf]) ∧
    (∀ s, conf.psk = some s → pskLines conf = [s]) ∧
    (conf.psk = none →
      peerArgGroup k conf oldE =
        ["peer", k] ++ endpointArgs conf oldE ++
          ["allowed-ips", joinIps conf] ∧
      pskLines conf = []) ∧
    (∀ ifname old new, (apply_diff ifname old new).stdin =
      (processedPeers old new).flatMap fun t => pskLines t.2.1) := by
  refine ⟨?_, ?_, ?_, fun _ _ _ => rfl⟩
  · intro h
    obtain ⟨s, hs⟩ := Option.isSome_iff_exists.1 h
    simp [peerArgGroup, pskArgs, hs]
  · intro s hs
    simp [pskLines, hs]
  · intro h
    exact ⟨by simp [peerArgGroup, pskArgs, h], by simp [pskLines, h]⟩

theorem C4_psk_emission_witness :
    peerArgGroup "K" ⟨none, some "P", 10, [], []⟩ none =
      ["peer", "K", "preshared-key", "/dev/stdin", "allowed-ips", ""] ∧
    pskLines ⟨none, some "P", 10, [], []⟩ = ["P"] :=
  ⟨by decide,
    (C4_psk_emission "K" ⟨none, some "P", 10, [], []⟩ none).2.1 "P" rfl⟩

/-- Counterexample to C4 as stated.  Two entries for key `K` share the
same PSK but differ in endpoint, so the peer is processed; the
preshared-key argument is emitted and a stdin line written although the
old and new PSKs are equal.  Conversely for key `L` the PSK is being
cleared (old `some`, new `none`): the claim requires one (empty) stdin
line, but nothing is emitted and nothing is written. -/
theorem C4_psk_emission_cex :
    ((assocLookup [("K", (⟨some "e1", some "P", 10, [], []⟩ : WgPeer))] "K").map
        WgPeer.psk =
      (assocLookup [("K", (⟨some "e2", some "P", 10, [], []⟩ : WgPeer))] "K").map
        WgPeer.psk) ∧
    assocLookup [("K", (⟨some "e1", some "P", 10, [], []⟩ : WgPeer))] "K" ≠
      assocLookup [("K", (⟨some "e2", some "P", 10, [], []⟩ : WgPeer))] "K" ∧
    (apply_diff "wg0" ⟨[("K", ⟨some "e1", some "P", 10, [], []⟩)]⟩
        ⟨[("K", ⟨some "e2", some "P", 10, [], []⟩)]⟩).peerArgs =
      ["peer", "K", "endpoint", "e2", "preshared-key", "/dev/stdin",
        "allowed-ips", ""] ∧
    (apply_diff "wg0" ⟨[("K", ⟨some "e1", some "P", 10, [], []⟩)]⟩
        ⟨[("K", ⟨some "e2", some "P", 10, [], []⟩)]⟩).stdin = ["P"] ∧
    assocLookup [("L", (⟨none, some "P", 10, [], []⟩ : WgPeer))] "L" ≠
      assocLookup [("L", (⟨none, none, 10, [], []⟩ : WgPeer))] "L" ∧
    (apply_diff "wg0" ⟨[("L", ⟨none, some "P", 10, [], []⟩)]⟩
        ⟨[("L", ⟨none, none, 10, [], []⟩)]⟩).peerArgs =
      ["peer", "L", "allowed-ips", ""] ∧
    (apply_diff "wg0" ⟨[("L", ⟨none, some "P", 10, [], []⟩)]⟩
        ⟨[("L", ⟨none, none, 10, [], []⟩)]⟩).stdin = [] := by
  refine ⟨rfl, by decide, by decide, by decide, by decide, by decide, by decide⟩

/-! ## Builder lemmas -/

theorem mem_updateEntry {κ α : Type} [DecidableEq κ] {k : κ} {f : α → α} :
    ∀ {m : List (κ × α)} {kv : κ × α}, kv ∈ updateEntry m k f →
      kv ∈ m ∨ ∃ v, (k, v) ∈ m ∧ kv = (k, f v) := by
  intro m
  induction m with
  | nil => intro kv h; simp [updateEntry] at h
  | cons kv2 rest ih =>
    intro kv h
    obtain ⟨k2, v2⟩ := kv2
    by_cases hk : k2 = k
    · subst hk
      have he : updateEntry ((k2, v2) :: rest) k2 f = (k2, f v2) :: rest := by
        simp [updateEntry]
      rw [he] at h
      rcases List.mem_cons.1 h with rfl | hm
      · exact Or.inr ⟨v2, List.mem_cons_self _ _, rfl⟩
      · exact Or.inl (List.mem_cons_of_mem _ hm)
    · have he : updateEntry ((k2, v2) :: rest) k f =
          (k2, v2) :: updateEntry rest k f := by
        simp [updateEntry, hk]
      rw [he] at h
      rcases List.mem_cons.1 h with rfl | hm
      · exact Or.inl (List.mem_cons_self _ _)
      · rcases ih hm with h1 | ⟨v, hv, hkv⟩
        · exact Or.inl (List.mem_cons_of_mem _ h1)
        · exact Or.inr ⟨v, List.mem_cons_of_mem _ hv, hkv⟩

theorem assocLookup_append_right {κ α : Type} [DecidableEq κ] :
    ∀ {m : List (κ × α)} {k : κ}, assocLookup m k = none →
      ∀ v : α, assocLookup (m ++ [(k, v)]) k = some v := by
  intro m
  induction m with
  | nil => intro k _ v; simp [assocLookup]
  | cons kv rest ih =>
    intro k h v
    obtain ⟨k2, v2⟩ := kv
    by_cases hk : k2 = k
    · subst hk
      simp [assocLookup] at h
    · have h2 : assocLookup rest k = none := by
        simpa [assocLookup, hk] using h
      simpa [assocLookup, hk] using ih h2 v

theorem updateEntry_append_fresh {κ α : Type} [DecidableEq κ] :
    ∀ {m : List (κ × α)} {k : κ}, assocLookup m k = none →
      ∀ (v : α) (f : α → α),
        updateEntry (m ++ [(k, v)]) k f = m ++ [(k, f v)] := by
  intro m
  induction m with
  | nil => intro k _ v f; simp [updateEntry]
  | cons kv rest ih =>
    intro k h v f
    obtain ⟨k2, v2⟩ := kv
    by_cases hk : k2 = k
    · subst hk
      simp [assocLookup] at h
    · have h2 : assocLookup rest k = none := by
        simpa [assocLookup, hk] using h
      simp [updateEntry, hk, ih h2 v f]

theorem add_peer_fst_ipv4 (ent : ModelPeer) (src : Source) (p : ProtoPeer) :
    (add_peer ent src p).1.ipv4 =
      ent.ipv4 ++ p.ipv4.filter fun i =>
        PrefixSet.contains 32 src.config.ipv4 i := rfl

theorem add_peer_fst_ipv6 (ent : ModelPeer) (src : Source) (p : ProtoPeer) :
    (add_peer ent src p).1.ipv6 =
      ent.ipv6 ++ p.ipv6.filter fun i =>
        PrefixSet.contains 128 src.config.ipv6 i := rfl

theorem filter_length_eq_iff {α : Type} (p : α → Bool) (l : List α) :
    ((l.filter p).length = l.length) ↔ ∀ a ∈ l, p a = true := by
  rw [← List.countP_eq_length_filter]
  exact List.countP_eq_length

theorem filter_eq_nil_iff_all_false {α : Type} (p : α → Bool) (l : List α) :
    (l.filter p = []) ↔ ∀ a ∈ l, p a = false := by
  constructor
  · intro h a ha
    exact Bool.eq_false_iff.2 (List.filter_eq_nil.1 h a ha)
  · intro h
    exact List.filter_eq_nil.2 fun a ha => Bool.eq_false_iff.1 (h a ha)

theorem insert_peer_vacant {st : BuilderState} {src : Source} {p : ProtoPeer}
    {contact : PeerContact} (h : assocLookup st.peers p.public_key = none) :
    insert_peer st src p contact =
      { st with peers := st.peers ++ [(p.public_key, freshPeer contact)] } := by
  unfold insert_peer
  rw [h]

theorem insert_peer_occupied {st : BuilderState} {src : Source} {p : ProtoPeer}
    {contact : PeerContact} {ent : ModelPeer}
    (h : assocLookup st.peers p.public_key = some ent) :
    insert_peer st src p contact =
      { st with errs := st.errs ++
        [{ src := src.config.name, peer := p.public_key, important := true,
           err := "duplicate public key" }] } := by
  unfold insert_peer
  rw [h]

theorem merge_at_some {st : BuilderState} {src : Source} {p : ProtoPeer}
    {k : Key} {ent : ModelPeer} (h : assocLookup st.peers k = some ent) :
    merge_at st src p k =
      { peers := updateEntry st.peers k fun _ => (add_peer ent src p).1,
        errs := st.errs ++ (add_peer ent src p).2 } := by
  unfold merge_at
  rw [h]

theorem mem_insert_peer_peers {st : BuilderState} {src : Source}
    {p : ProtoPeer} {contact : PeerContact} {kv : Key × ModelPeer}
    (h : kv ∈ (insert_peer st src p contact).peers) :
    kv ∈ st.peers ∨ kv = (p.public_key, freshPeer contact) := by
  cases hlk : assocLookup st.peers p.public_key with
  | some ent =>
    rw [insert_peer_occupied hlk] at h
    exact Or.inl h
  | none =>
    rw [insert_peer_vacant hlk] at h
    rcases List.mem_append.1 h with h1 | h2
    · exact Or.inl h1
    · exact Or.inr (List.mem_singleton.1 h2)

theorem mem_merge_at_peers {st : BuilderState} {src : Source} {p : ProtoPeer}
    {k : Key} {kv : Key × ModelPeer}
    (h : kv ∈ (merge_at st src p k).peers) :
    kv ∈ st.peers ∨
      ∃ ent, (k, ent) ∈ st.peers ∧ kv = (k, (add_peer ent src p).1) := by
  cases hlk : assocLookup st.peers k with
  | none =>
    unfold merge_at at h
    rw [hlk] at h
    exact Or.inl h
  | some ent =>
    rw [merge_at_some hlk] at h
    rcases mem_updateEntry h with h1 | ⟨v, hv, hkv⟩
    · exact Or.inl h1
    · exact Or.inr ⟨ent, assocLookup_mem hlk, hkv⟩

theorem merged_entry_prov {ent : ModelPeer} {src : Source} {p : ProtoPeer} :
    (∀ q ∈ (add_peer ent src p).1.ipv4, q ∈ ent.ipv4 ∨
      PrefixSet.contains 32 src.config.ipv4 q = true) ∧
    (∀ q ∈ (add_peer ent src p).1.ipv6, q ∈ ent.ipv6 ∨
      PrefixSet.contains 128 src.config.ipv6 q = true) := by
  constructor
  · intro q hq
    rw [add_peer_fst_ipv4] at hq
    rcases List.mem_append.1 hq with h1 | h2
    · exact Or.inl h1
    · exact Or.inr (List.mem_filter.1 h2).2
  · intro q hq
    rw [add_peer_fst_ipv6] at hq
    rcases List.mem_append.1 hq with h1 | h2
    · exact Or.inl h1
    · exact Or.inr (List.mem_filter.1 h2).2

theorem state_prov_merge {st : BuilderState} {src : Source} {p : ProtoPeer}
    {k : Key} {kv : Key × ModelPeer}
    (h : kv ∈ (merge_at st src p k).peers) :
    (∀ q ∈ kv.2.ipv4, (∃ kv0 ∈ st.peers, q ∈ kv0.2.ipv4) ∨
      PrefixSet.contains 32 src.config.ipv4 q = true) ∧
    (∀ q ∈ kv.2.ipv6, (∃ kv0 ∈ st.peers, q ∈ kv0.2.ipv6) ∨
      PrefixSet.contains 128 src.config.ipv6 q = true) := by
  rcases mem_merge_at_peers h with h1 | ⟨ent, hent, rfl⟩
  · exact ⟨fun q hq => Or.inl ⟨kv, h1, hq⟩, fun q hq => Or.inl ⟨kv, h1, hq⟩⟩
  · constructor
    · intro q hq
      rcases merged_entry_prov.1 q hq with hql | hqr
      · exact Or.inl ⟨(k, ent), hent, hql⟩
      · exact Or.inr hqr
    · intro q hq
      rcases merged_entry_prov.2 q hq with hql | hqr
      · exact Or.inl ⟨(k, ent), hent, hql⟩
      · exact Or.inr hqr

theorem state_prov_insert_merge {st : BuilderState} {src : Source}
    {p : ProtoPeer} {contact : PeerContact} {kv : Key × ModelPeer}
    (h : kv ∈ (merge_at (insert_peer st src p contact) src p
      p.public_key).peers) :
    (∀ q ∈ kv.2.ipv4, (∃ kv0 ∈ st.peers, q ∈ kv0.2.ipv4) ∨
      PrefixSet.contains 32 src.config.ipv4 q = true) ∧
    (∀ q ∈ kv.2.ipv6, (∃ kv0 ∈ st.peers, q ∈ kv0.2.ipv6) ∨
      PrefixSet.contains 128 src.config.ipv6 q = true) := by
  have h2 := state_prov_merge h
  constructor
  · intro q hq
    rcases h2.1 q hq with ⟨kv0, hkv0, hq0⟩ | hc
    · rcases mem_insert_peer_peers hkv0 with h3 | heq
      · exact Or.inl ⟨kv0, h3, hq0⟩
      · rw [heq] at hq0
        exact absurd hq0 (List.not_mem_nil q)
    · exact Or.inr hc
  · intro q hq
    rcases h2.2 q hq with ⟨kv0, hkv0, hq0⟩ | hc
    · rcases mem_insert_peer_peers hkv0 with h3 | heq
      · exact Or.inl ⟨kv0, h3, hq0⟩
      · rw [heq] at hq0
        exact absurd hq0 (List.not_mem_nil q)
    · exact Or.inr hc

theorem runCall_prov (pk : Key) (gc : GlobalConfig) (st : BuilderState)
    (c : Call) {kv : Key × ModelPeer}
    (h : kv ∈ (runCall pk gc st c).peers) :
    (∀ q ∈ kv.2.ipv4, (∃ kv0 ∈ st.peers, q ∈ kv0.2.ipv4) ∨
      PrefixSet.contains 32 (callSrc c).config.ipv4 q = true) ∧
    (∀ q ∈ kv.2.ipv6, (∃ kv0 ∈ st.peers, q ∈ kv0.2.ipv6) ∨
      PrefixSet.contains 128 (callSrc c).config.ipv6 q = true) := by
  cases c with
  | server src s =>
    simp only [runCall, callSrc] at h ⊢
    simp only [add_server] at h
    split at h
    · exact ⟨fun q hq => Or.inl ⟨kv, h, hq⟩, fun q hq => Or.inl ⟨kv, h, hq⟩⟩
    · split at h
      · exact ⟨fun q hq => Or.inl ⟨kv, h, hq⟩, fun q hq => Or.inl ⟨kv, h, hq⟩⟩
      · exact state_prov_insert_merge h
  | roadWarrior src r =>
    simp only [runCall, callSrc] at h ⊢
    simp only [add_road_warrior] at h
    split at h
    · exact ⟨fun q hq => Or.inl ⟨kv, h, hq⟩, fun q hq => Or.inl ⟨kv, h, hq⟩⟩
    · split at h
      · exact ⟨fun q hq => Or.inl ⟨kv, h, hq⟩, fun q hq => Or.inl ⟨kv, h, hq⟩⟩
      · split at h
        · split at h
          · exact ⟨fun q hq => Or.inl ⟨kv, h, hq⟩,
              fun q hq => Or.inl ⟨kv, h, hq⟩⟩
          · exact state_prov_insert_merge h
        · split at h
          · exact state_prov_merge h
          · exact ⟨fun q hq => Or.inl ⟨kv, h, hq⟩,
              fun q hq => Or.inl ⟨kv, h, hq⟩⟩

theorem runCalls_prov (pk : Key) (gc : GlobalConfig) :
    ∀ (calls : List Call) (st : BuilderState) (kv : Key × ModelPeer),
      kv ∈ (calls.foldl (runCall pk gc) st).peers →
      (∀ q ∈ kv.2.ipv4, (∃ kv0 ∈ st.peers, q ∈ kv0.2.ipv4) ∨
        ∃ c ∈ calls, PrefixSet.contains 32 (callSrc c).config.ipv4 q = true) ∧
      (∀ q ∈ kv.2.ipv6, (∃ kv0 ∈ st.peers, q ∈ kv0.2.ipv6) ∨
        ∃ c ∈ calls, PrefixSet.contains 128 (callSrc c).config.ipv6 q = true) := by
  intro calls
  induction calls with
  | nil =>
    intro st kv h
    exact ⟨fun q hq => Or.inl ⟨kv, h, hq⟩, fun q hq => Or.inl ⟨kv, h, hq⟩⟩
  | cons c rest ih =>
    intro st kv h
    rw [List.foldl_cons] at h
    have hr := ih (runCall pk gc st c) kv h
    constructor
    · intro q hq
      rcases hr.1 q hq with ⟨kv0, hkv0, hq0⟩ | ⟨c2, hc2, hcont⟩
      · rcases (runCall_prov pk gc st c hkv0).1 q hq0 with
          ⟨kv1, hkv1, hq1⟩ | hcont
        · exact Or.inl ⟨kv1, hkv1, hq1⟩
        · exact Or.inr ⟨c, List.mem_cons_self _ _, hcont⟩
      · exact Or.inr ⟨c2, List.mem_cons_of_mem _ hc2, hcont⟩
    · intro q hq
      rcases hr.2 q hq with ⟨kv0, hkv0, hq0⟩ | ⟨c2, hc2, hcont⟩
      · rcases (runCall_prov pk gc st c hkv0).2 q hq0 with
          ⟨kv1, hkv1, hq1⟩ | hcont
        · exact Or.inl ⟨kv1, hkv1, hq1⟩
        · exact Or.inr ⟨c, List.mem_cons_self _ _, hcont⟩
      · exact Or.inr ⟨c2, List.mem_cons_of_mem _ hc2, hcont⟩

theorem add_peer_errs_spec (ent : ModelPeer) (src : Source) (p : ProtoPeer) :
    ((add_peer ent src p).2 = [] ↔
      ((∀ i ∈ p.ipv4, PrefixSet.contains 32 src.config.ipv4 i = true) ∧
       (∀ i ∈ p.ipv6, PrefixSet.contains 128 src.config.ipv6 i = true))) ∧
    (∀ e ∈ (add_peer ent src p).2,
      (add_peer ent src p).2 = [e] ∧
      e.src = src.config.name ∧ e.peer = p.public_key ∧
      (e.important = true ↔
        ((∀ i ∈ p.ipv4, PrefixSet.contains 32 src.config.ipv4 i = false) ∧
         (∀ i ∈ p.ipv6, PrefixSet.contains 128 src.config.ipv6 i = false)))) := by
  have hk4 := filter_length_eq_iff
    (fun i => PrefixSet.contains 32 src.config.ipv4 i) p.ipv4
  have hk6 := filter_length_eq_iff
    (fun i => PrefixSet.contains 128 src.config.ipv6 i) p.ipv6
  have he4 := filter_eq_nil_iff_all_false
    (fun i => PrefixSet.contains 32 src.config.ipv4 i) p.ipv4
  have he6 := filter_eq_nil_iff_all_false
    (fun i => PrefixSet.contains 128 src.config.ipv6 i) p.ipv6
  by_cases hr :
      (p.ipv4.filter fun i =>
        PrefixSet.contains 32 src.config.ipv4 i).length = p.ipv4.length ∧
      (p.ipv6.filter fun i =>
        PrefixSet.contains 128 src.config.ipv6 i).length = p.ipv6.length
  · have h2 : (add_peer ent src p).2 = [] := by
      simp [add_peer, hr.1, hr.2]
    rw [h2]
    constructor
    · exact ⟨fun _ => ⟨hk4.1 hr.1, hk6.1 hr.2⟩, fun _ => rfl⟩
    · intro e he
      exact absurd he (List.not_mem_nil e)
  · have hR : ((p.ipv4.filter fun i =>
        PrefixSet.contains 32 src.config.ipv4 i).length == p.ipv4.length &&
        (p.ipv6.filter fun i =>
          PrefixSet.contains 128 src.config.ipv6 i).length == p.ipv6.length) =
        false := by
      by_cases h4 : (p.ipv4.filter fun i =>
          PrefixSet.contains 32 src.config.ipv4 i).length = p.ipv4.length
      · have h6 : ¬ (p.ipv6.filter fun i =>
            PrefixSet.contains 128 src.config.ipv6 i).length = p.ipv6.length :=
          fun h6 => hr ⟨h4, h6⟩
        simp [h4, h6]
      · simp [h4]
    have h2 : (add_peer ent src p).2 =
        [{ src := src.config.name, peer := p.public_key,
           important := !(!((p.ipv4.filter fun i =>
              PrefixSet.contains 32 src.config.ipv4 i).isEmpty &&
             (p.ipv6.filter fun i =>
              PrefixSet.contains 128 src.config.ipv6 i).isEmpty)),
           err := if (!((p.ipv4.filter fun i =>
              PrefixSet.contains 32 src.config.ipv4 i).isEmpty &&
             (p.ipv6.filter fun i =>
              PrefixSet.contains 128 src.config.ipv6 i).isEmpty)) = true
             then "some IPs removed" else "all IPs removed" }] := by
      show (if (!((p.ipv4.filter fun i =>
          PrefixSet.contains 32 src.config.ipv4 i).length == p.ipv4.length &&
          (p.ipv6.filter fun i =>
            PrefixSet.contains 128 src.config.ipv6 i).length ==
            p.ipv6.length)) = true
        then _ else []) = _
      rw [hR]
      rfl
    rw [h2]
    constructor
    · constructor
      · intro hcontra
        exact absurd hcontra (by simp)
      · intro hall
        exact absurd ⟨hk4.2 hall.1, hk6.2 hall.2⟩ hr
    · intro e he
      have heq := List.mem_singleton.1 he
      subst heq
      refine ⟨rfl, rfl, rfl, ?_⟩
      show (!(!_)) = true ↔ _
      rw [Bool.not_not, Bool.and_eq_true, List.isEmpty_iff, List.isEmpty_iff]
      constructor
      · intro hA
        exact ⟨he4.1 hA.1, he6.1 hA.2⟩
      · intro hA
        exact ⟨he4.2 hA.1, he6.2 hA.2⟩

/-- Evaluation of `contains` on a one-element set, used at concrete
inputs below (the search loop recurses by well-founded measure, so the
equations are applied by `simp` rather than kernel reduction). -/
theorem containsEval1 :
    PrefixSet.contains 32 [⟨0x0A000000, 8⟩] ⟨0x0A000001, 32⟩ = true := by
  have hcmp : Net.cmp ⟨0x0A000000, 8⟩ ⟨0x0A000001, 32⟩ = Ordering.lt :=
    Net.cmp_eq_lt.2 (by decide)
  have hbs : PrefixSet.bsLoop [⟨0x0A000000, 8⟩] ⟨0x0A000001, 32⟩ 0 1 =
      Sum.inr 1 := by
    unfold PrefixSet.bsLoop
    rw [dif_neg (by norm_num : ¬ (1 : Nat) < 1)]
    simp [hcmp]
  have hsearch : PrefixSet.binarySearch [⟨0x0A000000, 8⟩] ⟨0x0A000001, 32⟩ =
      Sum.inr 1 := by
    unfold PrefixSet.binarySearch
    simpa using hbs
  simp only [PrefixSet.contains, hsearch]
  decide

/-! ## Claim C2: source prefix filtering in the builder -/

def gcW2 : GlobalConfig := ⟨10, 0, []⟩

def srcW2 : Source := ⟨⟨"s2", none, [⟨0x0A000000, 8⟩], [], true⟩⟩

def srvW2 : Server := ⟨⟨1, [⟨0x0A000001, 32⟩], [], 25⟩, 5⟩

/-- **C2.**  After any sequence of builder calls, every prefix of every
peer entry is contained in the prefix set of a contributing source; and
one `add_peer` merge appends exactly the advertised prefixes the
source's sets contain, records one error iff any prefix was dropped,
and marks it important iff none survived. -/
theorem C2_source_filtering (pk : Key) (gc : GlobalConfig)
    (calls : List Call) :
    (∀ kv ∈ (runCalls pk gc calls).peers,
      (∀ q ∈ kv.2.ipv4, ∃ c ∈ calls,
        PrefixSet.contains 32 (callSrc c).config.ipv4 q = true) ∧
      (∀ q ∈ kv.2.ipv6, ∃ c ∈ calls,
        PrefixSet.contains 128 (callSrc c).config.ipv6 q = true)) ∧
    (∀ ent src p,
      (add_peer ent src p).1.ipv4 =
        ent.ipv4 ++ p.ipv4.filter (fun i =>
          PrefixSet.contains 32 src.config.ipv4 i) ∧
      (add_peer ent src p).1.ipv6 =
        ent.ipv6 ++ p.ipv6.filter (fun i =>
          PrefixSet.contains 128 src.config.ipv6 i) ∧
      ((add_peer ent src p).2 = [] ↔
        ((∀ i ∈ p.ipv4, PrefixSet.contains 32 src.config.ipv4 i = true) ∧
         (∀ i ∈ p.ipv6, PrefixSet.contains 128 src.config.ipv6 i = true))) ∧
      (∀ e ∈ (add_peer ent src p).2,
        (add_peer ent src p).2 = [e] ∧
        e.src = src.config.name ∧ e.peer = p.public_key ∧
        (e.important = true ↔
          ((∀ i ∈ p.ipv4,
            PrefixSet.contains 32 src.config.ipv4 i = false) ∧
           (∀ i ∈ p.ipv6,
            PrefixSet.contains 128 src.config.ipv6 i = false))))) := by
  constructor
  · intro kv h
    have hr := runCalls_prov pk gc calls ⟨[], []⟩ kv h
    constructor
    · intro q hq
      rcases hr.1 q hq with ⟨kv0, hkv0, _⟩ | hc
      · exact absurd hkv0 (List.not_mem_nil kv0)
      · exact hc
    · intro q hq
      rcases hr.2 q hq with ⟨kv0, hkv0, _⟩ | hc
      · exact absurd hkv0 (List.not_mem_nil kv0)
      · exact hc
  · intro ent src p
    exact ⟨add_peer_fst_ipv4 ent src p, add_peer_fst_ipv6 ent src p,
      (add_peer_errs_spec ent src p).1, (add_peer_errs_spec ent src p).2⟩

set_option maxRecDepth 4000 in
theorem C2_source_filtering_witness :
    ∃ c ∈ [Call.server srcW2 srvW2],
      PrefixSet.contains 32 (callSrc c).config.ipv4 ⟨0x0A000001, 32⟩ = true :=
  ((C2_source_filtering 0 gcW2 [Call.server srcW2 srvW2]).1
    ((1 : Key), ⟨some 5, none, 25, [⟨0x0A000001, 32⟩], []⟩)
    (by
      simp only [runCalls, List.foldl_cons, List.foldl_nil, runCall,
        add_server, peer_contact, gcW2, srcW2, srvW2, assocLookup,
        GlobalConfig.fix_keepalive, insert_peer, freshPeer, merge_at,
        updateEntry, add_peer, List.filter, containsEval1]
      norm_num [List.mem_singleton])).1
    ⟨0x0A000001, 32⟩ (by decide)

/-! ## Claim C5: the local public key never becomes a peer -/

theorem runCall_keys_ne (pk : Key) (gc : GlobalConfig) (st : BuilderState)
    (c : Call) (hst : ∀ kv ∈ st.peers, kv.1 ≠ pk) :
    ∀ kv ∈ (runCall pk gc st c).peers, kv.1 ≠ pk := by
  intro kv h
  cases c with
  | server src s =>
    simp only [runCall, add_server] at h
    split at h
    · exact hst kv h
    · split at h
      · exact hst kv h
      · next hne =>
        rcases mem_merge_at_peers h with h1 | ⟨ent, hent, rfl⟩
        · rcases mem_insert_peer_peers h1 with h2 | heq
          · exact hst kv h2
          · rw [heq]
            exact hne
        · exact hne
  | roadWarrior src r =>
    simp only [runCall, add_road_warrior] at h
    split at h
    · exact hst kv h
    · split at h
      · exact hst kv h
      · next hne =>
        split at h
        · split at h
          · exact hst kv h
          · rcases mem_merge_at_peers h with h1 | ⟨ent, hent, rfl⟩
            · rcases mem_insert_peer_peers h1 with h2 | heq
              · exact hst kv h2
              · rw [heq]
                exact hne
            · exact hne
        · next hbase =>
          split at h
          · rcases mem_merge_at_peers h with h1 | ⟨ent, hent, rfl⟩
            · exact hst kv h1
            · exact hbase
          · exact hst kv h

theorem runCalls_keys_ne (pk : Key) (gc : GlobalConfig) :
    ∀ (calls : List Call) (st : BuilderState),
      (∀ kv ∈ st.peers, kv.1 ≠ pk) →
      ∀ kv ∈ (calls.foldl (runCall pk gc) st).peers, kv.1 ≠ pk := by
  intro calls
  induction calls with
  | nil => intro st hst; exact hst
  | cons c rest ih =>
    intro st hst
    rw [List.foldl_cons]
    exact ih _ (runCall_keys_ne pk gc st c hst)

theorem peer_contact_inl_spec {gc : GlobalConfig} {src : Source}
    {p : ProtoPeer} {e : BuildError}
    (h : peer_contact gc src p = Sum.inl e) :
    e.important = true ∧ e.src = src.config.name ∧ e.peer = p.public_key ∧
      e.err = "peer source not allowed" := by
  simp only [peer_contact] at h
  split at h
  · exact absurd h (by simp)
  · split at h
    · split at h
      · cases h
        exact ⟨rfl, rfl, rfl, rfl⟩
      · exact absurd h (by simp)
    · exact absurd h (by simp)

/-- **C5** (amended).  The local public key never appears as a key of
the peer map.  A server carrying the local key is skipped silently only
when its peer-contact computation succeeds; when the global-config
override check fails, the (important) contact error is recorded before
the local-key test is reached.  A road warrior whose own key is the
local key records exactly one important error and inserts nothing. -/
theorem C5_local_key_excluded (pk : Key) (gc : GlobalConfig) :
    (∀ calls, ∀ kv ∈ (runCalls pk gc calls).peers, kv.1 ≠ pk) ∧
    (∀ st src srv contact, srv.peer.public_key = pk →
      peer_contact gc src srv.peer = Sum.inr contact →
      add_server pk gc st src srv = st) ∧
    (∀ st src srv e, peer_contact gc src srv.peer = Sum.inl e →
      add_server pk gc st src srv = { st with errs := st.errs ++ [e] } ∧
        e.important = true) ∧
    (∀ st src p contact, p.peer.public_key = pk →
      peer_contact gc src p.peer = Sum.inr contact →
      add_road_warrior pk gc st src p =
        { st with errs := st.errs ++
          [{ src := src.config.name, peer := pk, important := true,
             err := "the local peer cannot be a road warrior" }] }) := by
  refine ⟨?_, ?_, ?_, ?_⟩
  · intro calls
    exact runCalls_keys_ne pk gc calls ⟨[], []⟩
      (fun kv h => absurd h (List.not_mem_nil kv))
  · intro st src srv contact hk hcontact
    simp only [add_server, hcontact]
    rw [if_pos hk]
  · intro st src srv e hcontact
    constructor
    · simp only [add_server, hcontact]
    · exact (peer_contact_inl_spec hcontact).1
  · intro st src p contact hk hcontact
    simp only [add_road_warrior, hcontact]
    rw [if_pos hk, hk]

theorem C5_local_key_excluded_witness :
    add_road_warrior 0 ⟨10, 0, []⟩ ⟨[], []⟩ ⟨⟨"s5", none, [], [], true⟩⟩
        ⟨⟨0, [], [], 25⟩, 3⟩ =
      { peers := [],
        errs := [{ src := "s5", peer := 0, important := true,
                   err := "the local peer cannot be a road warrior" }] } := by
  have h := (C5_local_key_excluded 0 ⟨10, 0, []⟩).2.2.2 ⟨[], []⟩
    ⟨⟨"s5", none, [], [], true⟩⟩ ⟨⟨0, [], [], 25⟩, 3⟩ ⟨none, none, 25⟩ rfl rfl
  simpa using h

/-- Counterexample to C5 as stated: a server whose key is the local key
but with a global-config override naming a different source is *not*
skipped silently — the contact check runs first and records an
important error. -/
theorem C5_local_key_excluded_cex :
    ((⟨⟨0, [], [], 0⟩, 9⟩ : Server).peer.public_key = 0) ∧
    (add_server 0 ⟨10, 0, [(0, ⟨some "other", none, none, none⟩)]⟩ ⟨[], []⟩
        ⟨⟨"s5x", none, [], [], true⟩⟩ ⟨⟨0, [], [], 0⟩, 9⟩).peers = [] ∧
    (add_server 0 ⟨10, 0, [(0, ⟨some "other", none, none, none⟩)]⟩ ⟨[], []⟩
        ⟨⟨"s5x", none, [], [], true⟩⟩ ⟨⟨0, [], [], 0⟩, 9⟩).errs =
      [{ src := "s5x", peer := 0, important := true,
         err := "peer source not allowed" }] :=
  ⟨rfl, rfl, rfl⟩

/-! ## Claim C6: road-warrior handling in the builder -/

/-- **C6** (amended).  For a road warrior whose peer-contact computation
succeeds and whose own key is not the local key: if its base differs
from the local key, a present base entry receives the filtered merge (no
new peer is keyed by the road warrior's key) and an absent base records
exactly one important error; if the base equals the local key, the entry
is inserted as a fresh top-level peer iff `allow_road_warriors` is set
(with the duplicate-key error when its key is already present),
otherwise exactly one important error is recorded. -/
theorem C6_road_warrior (pk : Key) (gc : GlobalConfig) (st : BuilderState)
    (src : Source) (p : RoadWarrior) (contact : PeerContact)
    (hcon : peer_contact gc src p.peer = Sum.inr contact)
    (hk : p.peer.public_key ≠ pk) :
    (p.base ≠ pk → ∀ ent, assocLookup st.peers p.base = some ent →
      add_road_warrior pk gc st src p =
        { peers := updateEntry st.peers p.base
            fun _ => (add_peer ent src p.peer).1,
          errs := st.errs ++ (add_peer ent src p.peer).2 }) ∧
    (p.base ≠ pk → assocLookup st.peers p.base = none →
      add_road_warrior pk gc st src p =
        { st with errs := st.errs ++
          [{ src := src.config.name, peer := p.peer.public_key,
             important := true, err := "unknown base peer" }] }) ∧
    (p.base = pk → src.config.allow_road_warriors = false →
      add_road_warrior pk gc st src p =
        { st with errs := st.errs ++
          [{ src := src.config.name, peer := p.peer.public_key,
             important := true,
             err := "road warriors from this source not allowed" }] }) ∧
    (p.base = pk → src.config.allow_road_warriors = true →
      assocLookup st.peers p.peer.public_key = none →
      add_road_warrior pk gc st src p =
        { peers := st.peers ++
            [(p.peer.public_key, (add_peer (freshPeer contact) src p.peer).1)],
          errs := st.errs ++ (add_peer (freshPeer contact) src p.peer).2 }) ∧
    (p.base = pk → src.config.allow_road_warriors = true →
      ∀ ent, assocLookup st.peers p.peer.public_key = some ent →
      add_road_warrior pk gc st src p =
        { peers := updateEntry st.peers p.peer.public_key
            fun _ => (add_peer ent src p.peer).1,
          errs := (st.errs ++
            [{ src := src.config.name, peer := p.peer.public_key,
               important := true, err := "duplicate public key" }]) ++
            (add_peer ent src p.peer).2 }) := by
  refine ⟨?_, ?_, ?_, ?_, ?_⟩
  · intro hb ent hlk
    simp only [add_road_warrior, hcon]
    rw [if_neg hk, if_neg hb, hlk]
    exact merge_at_some hlk
  · intro hb hlk
    simp only [add_road_warrior, hcon]
    rw [if_neg hk, if_neg hb, hlk]
  · intro hb ha
    simp only [add_road_warrior, hcon]
    rw [if_neg hk, if_pos hb, if_pos ha]
  · intro hb ha hlk
    simp only [add_road_warrior, hcon]
    rw [if_neg hk, if_pos hb,
      if_neg (by rw [ha]; exact fun hf => Bool.noConfusion hf)]
    rw [insert_peer_vacant hlk]
    simp only [merge_at, assocLookup_append_right hlk (freshPeer contact),
      updateEntry_append_fresh hlk]
  · intro hb ha ent hlk
    simp only [add_road_warrior, hcon]
    rw [if_neg hk, if_pos hb,
      if_neg (by rw [ha]; exact fun hf => Bool.noConfusion hf)]
    rw [insert_peer_occupied hlk]
    simp only [merge_at, hlk]

theorem C6_road_warrior_witness :
    add_road_warrior 0 ⟨10, 0, []⟩ ⟨[], []⟩ ⟨⟨"s6", none, [], [], true⟩⟩
        ⟨⟨7, [], [], 25⟩, 1⟩ =
      { peers := [],
        errs := [{ src := "s6", peer := 7, important := true,
                   err := "unknown base peer" }] } := by
  have h := (C6_road_warrior 0 ⟨10, 0, []⟩ ⟨[], []⟩
      ⟨⟨"s6", none, [], [], true⟩⟩ ⟨⟨7, [], [], 25⟩, 1⟩
      ⟨none, none, 25⟩ rfl (by decide)).2.1 (by decide) rfl
  simpa using h

def gcX6 : GlobalConfig := ⟨10, 0, [(7, ⟨some "other", none, none, none⟩)]⟩

def srcX6 : Source := ⟨⟨"s6x", none, [⟨0x0A000000, 8⟩], [], true⟩⟩

def srvX6 : Server := ⟨⟨1, [], [], 0⟩, 5⟩

def rwX6 : RoadWarrior := ⟨⟨7, [⟨0x0A000001, 32⟩], [], 0⟩, 1⟩

/-- Counterexample to C6 as stated: a road warrior whose base (key 1) is
present in the peer map and differs from the local key (0), and whose
advertised prefix the source's set contains, is nonetheless *not* merged
into the base entry — the peer-contact override check fails first (its
override block names another source), so the map is left unchanged and
an error is recorded instead. -/
theorem C6_road_warrior_cex :
    rwX6.base = 1 ∧ (1 : Key) ≠ 0 ∧ rwX6.peer.ipv4 = [⟨0x0A000001, 32⟩] ∧
    PrefixSet.contains 32 srcX6.config.ipv4 ⟨0x0A000001, 32⟩ = true ∧
    assocLookup (runCalls 0 gcX6 [Call.server srcX6 srvX6]).peers 1 =
      some ⟨some 5, none, 0, [], []⟩ ∧
    runCalls 0 gcX6 [Call.server srcX6 srvX6, Call.roadWarrior srcX6 rwX6] =
      { peers := [(1, ⟨some 5, none, 0, [], []⟩)],
        errs := [{ src := "s6x", peer := 7, important := true,
                   err := "peer source not allowed" }] } :=
  ⟨rfl, by decide, rfl, containsEval1, by decide, by decide⟩

end Wgconfd
